import Mathlib

set_option linter.unusedVariables false

/-!
Verification of the storage and query core of a small read-only engine over
the SQLite file format (sources: src/util.rs, src/query.rs, src/db.rs,
src/main.rs).

Shallow embedding conventions:

* The page-number indirection of the file (`Db::get_page` resolving
  `left_child_page_num` and `rightmost_pointer` through positioned reads) is
  modelled by inductive trees whose interior cells directly carry the decoded
  child page.  The decoder reads exactly `num_cells` cell pointers and decodes
  one cell per pointer, so a decoded page's cell list length equals its
  header's `num_cells`; pages are therefore modelled by their cell lists.
* Fallible Rust code returning `anyhow::Result` is embedded in
  `Except RtError`; a Rust panic (`panic!`, `todo!`, `unwrap` on `None`) is
  the distinguished value `RtError.panicked`, while `Result::Err` values
  (recoverable, propagated with `?`) are `RtError.err`.
* Machine integers (`i64` row ids, varint values) are `Int`/`Nat` with
  explicit two's-complement truncation (`% 2 ^ 64`) where the code can wrap.
-/

/-- Column values decoded by the record decoder: the serial types the code
supports (NULL, i8, i16, i24, the Zero/One sentinels, UTF-8 text).  Integer
payloads are modelled as `Int`.  Matches the `Column` enum consumed throughout
`src/db.rs` (`Column::Str`, `I8`, `I16`, `I24`, `Zero`, `One`, `Null`). -/
inductive Column where
  | null
  | i8 (i : Int)
  | i16 (i : Int)
  | i24 (i : Int)
  | zero
  | one
  | str (s : String)
deriving DecidableEq, Repr

/-- Outcome of fallible Rust code.  `err` is a recoverable `anyhow` error
value (`Result::Err`, built by `anyhow!` and propagated by `?`); `panicked`
is a Rust panic (`panic!`, `todo!`, `Option::unwrap` on `None`), which aborts
the computation without producing an error value. -/
inductive RtError where
  | err (msg : String)
  | panicked (msg : String)
deriving DecidableEq, Repr

/-- Association-list lookup; models `BTreeMap::get` / `HashMap::get` (the
maps are embedded as association lists with distinct keys). -/
def lookupA {α : Type} : List (String × α) → String → Option α
  | [], _ => none
  | (k', v) :: rest, k => if k' = k then some v else lookupA rest k

/-- The byte-trimming loop of `read_varint` (src/util.rs lines 10-25): walk
the bytes while the previous byte had its continuation (high) bit set; bytes
at positions 0..7 contribute their low 7 bits, a byte reached at position 8
is taken whole and ends the loop. -/
def varint_trim : List Nat → Nat → Bool → List Nat
  | [], _, _ => []
  | b :: rest, i, cont =>
    if cont = false then []
    else if i = 8 then [b]
    else (b &&& 127) :: varint_trim rest (i + 1) (decide (b &&& 128 = 128))

/-- The accumulation loop of `read_varint` (src/util.rs lines 27-37): shift
the accumulator by 7 bits per trimmed byte, by 8 bits for a byte at
position 8.  Computed in `Nat`; the final truncation to `i64` happens in
`read_varint`. -/
def varint_val : List Nat → Nat → Nat → Nat
  | [], _, acc => acc
  | b :: rest, i, acc =>
    if i = 8 then (acc <<< 8) ||| b
    else varint_val rest (i + 1) ((acc <<< 7) ||| b)

/-- Two's-complement reinterpretation of a `Nat` as a signed 64-bit value,
modelling the `i64` accumulator of `read_varint`. -/
def toI64 (n : Nat) : Int :=
  if n % 2 ^ 64 < 2 ^ 63 then ((n % 2 ^ 64 : Nat) : Int)
  else ((n % 2 ^ 64 : Nat) : Int) - 2 ^ 64

/-- `read_varint` (src/util.rs lines 5-40): decode a variable-length integer
from at most 9 bytes, returning the signed value and the number of bytes
consumed.  The function panics (`none`) only when handed a slice longer than
9 bytes. -/
def read_varint (bytes : List Nat) : Option (Int × Nat) :=
  if bytes.length > 9 then none
  else
    let trimmed := varint_trim bytes 0 true
    some (toI64 (varint_val trimmed 0 0), trimmed.length)

theorem lor_shiftLeft_mod_256 (a b : Nat) (hb : b < 256) :
    ((a <<< 8) ||| b) % 256 = b := by
  have h256 : (256 : Nat) = 2 ^ 8 := by norm_num
  apply Nat.eq_of_testBit_eq
  intro i
  rw [h256, Nat.testBit_mod_two_pow]
  rcases Nat.lt_or_ge i 8 with hi | hi
  · have hd : decide (i < 8) = true := decide_eq_true hi
    have hs : ¬ 8 ≤ i := by omega
    simp [Nat.testBit_lor, Nat.testBit_shiftLeft, hd, hs]
  · have hd : decide (i < 8) = false := decide_eq_false (by omega)
    have hb2 : b < 2 ^ i := lt_of_lt_of_le (h256 ▸ hb) (Nat.pow_le_pow_right (by norm_num) hi)
    have ht : b.testBit i = false := Nat.testBit_lt_two_pow hb2
    simp [hd, ht]

theorem toI64_mod_256 (x : Nat) : toI64 x % 256 = ((x % 256 : Nat) : Int) := by
  unfold toI64
  split <;> push_cast <;> omega

theorem read_varint_total_len9 (bytes : List Nat) (h : bytes.length = 9) :
    (read_varint bytes).isSome := by
  simp [read_varint, h]

theorem read_varint_allcont (bytes : List Nat) (hlen : bytes.length = 9)
    (hbyte : ∀ b ∈ bytes, b < 256)
    (hcont : ∀ j, j < 8 → bytes.getD j 0 &&& 128 = 128) :
    ∃ v : Int, read_varint bytes = some (v, 9) ∧
      v % 256 = ((bytes.getD 8 0 : Nat) : Int) := by
  rcases bytes with _ | ⟨b0, bytes⟩; · simp at hlen
  rcases bytes with _ | ⟨b1, bytes⟩; · simp at hlen
  rcases bytes with _ | ⟨b2, bytes⟩; · simp at hlen
  rcases bytes with _ | ⟨b3, bytes⟩; · simp at hlen
  rcases bytes with _ | ⟨b4, bytes⟩; · simp at hlen
  rcases bytes with _ | ⟨b5, bytes⟩; · simp at hlen
  rcases bytes with _ | ⟨b6, bytes⟩; · simp at hlen
  rcases bytes with _ | ⟨b7, bytes⟩; · simp at hlen
  rcases bytes with _ | ⟨b8, bytes⟩; · simp at hlen
  have hnil : bytes = [] := by simpa using hlen
  subst hnil
  have e0 : b0 &&& 128 = 128 := by simpa using hcont 0 (by norm_num)
  have e1 : b1 &&& 128 = 128 := by simpa using hcont 1 (by norm_num)
  have e2 : b2 &&& 128 = 128 := by simpa using hcont 2 (by norm_num)
  have e3 : b3 &&& 128 = 128 := by simpa using hcont 3 (by norm_num)
  have e4 : b4 &&& 128 = 128 := by simpa using hcont 4 (by norm_num)
  have e5 : b5 &&& 128 = 128 := by simpa using hcont 5 (by norm_num)
  have e6 : b6 &&& 128 = 128 := by simpa using hcont 6 (by norm_num)
  have e7 : b7 &&& 128 = 128 := by simpa using hcont 7 (by norm_num)
  have hb8 : b8 < 256 := hbyte b8 (by simp)
  have htrim : varint_trim [b0, b1, b2, b3, b4, b5, b6, b7, b8] 0 true =
      [b0 &&& 127, b1 &&& 127, b2 &&& 127, b3 &&& 127, b4 &&& 127,
       b5 &&& 127, b6 &&& 127, b7 &&& 127, b8] := by
    simp [varint_trim, e0, e1, e2, e3, e4, e5, e6, e7]
  refine ⟨toI64 (varint_val (varint_trim [b0, b1, b2, b3, b4, b5, b6, b7, b8] 0 true) 0 0), ?_, ?_⟩
  · simp [read_varint, htrim]
  · rw [htrim]
    have hval : varint_val
        [b0 &&& 127, b1 &&& 127, b2 &&& 127, b3 &&& 127, b4 &&& 127,
         b5 &&& 127, b6 &&& 127, b7 &&& 127, b8] 0 0 =
        ((((((((((((((((0 <<< 7) ||| (b0 &&& 127)) <<< 7) ||| (b1 &&& 127)) <<< 7)
          ||| (b2 &&& 127)) <<< 7) ||| (b3 &&& 127)) <<< 7) ||| (b4 &&& 127)) <<< 7)
          ||| (b5 &&& 127)) <<< 7) ||| (b6 &&& 127)) <<< 7) ||| (b7 &&& 127)) <<< 8 ||| b8 := by
      simp [varint_val]
    rw [hval, toI64_mod_256, lor_shiftLeft_mod_256 _ _ hb8]
    simp

/-- C7: `read_varint` is total on any 9-byte input (its only failure mode is
a slice longer than 9 bytes); whenever the first eight bytes all have the
high (continuation) bit set, the ninth byte contributes all 8 of its bits
(the decoded value is congruent to that byte modulo 256) and the consumed
count is exactly 9; moreover the bytes 0x81 0x47 decode to value 199 with
consumed 2, and 0x17 decodes to value 23 with consumed 1. -/
theorem claim_c7_read_varint_total :
    (∀ bytes : List Nat, bytes.length = 9 → (read_varint bytes).isSome) ∧
    (∀ bytes : List Nat, bytes.length = 9 → (∀ b ∈ bytes, b < 256) →
      (∀ j, j < 8 → bytes.getD j 0 &&& 128 = 128) →
      ∃ v : Int, read_varint bytes = some (v, 9) ∧
        v % 256 = ((bytes.getD 8 0 : Nat) : Int)) ∧
    read_varint [0x81, 0x47] = some (199, 2) ∧
    read_varint [0x17] = some (23, 1) :=
  ⟨read_varint_total_len9, read_varint_allcont, by decide, by decide⟩

/-- Witness for C7 at the nine-continuation-byte vector of the unit test. -/
theorem claim_c7_read_varint_total_witness :
    ∃ v : Int,
      read_varint [0x82, 0xE1, 0xE7, 0xF0, 0x8B, 0xE1, 0xE7, 0xF0, 0x0B] = some (v, 9) ∧
      v % 256 = (11 : Int) := by
  have h := claim_c7_read_varint_total.2.1
    [0x82, 0xE1, 0xE7, 0xF0, 0x8B, 0xE1, 0xE7, 0xF0, 0x0B]
    (by decide) (by decide) (by decide)
  simpa using h

/-- An index B-tree with the page-number indirection resolved.  A leaf index
page holds its decoded cells (`IdxLeafCell.record_body.columns`: key columns
followed by the trailing row id column); an interior index page holds cells
pairing the decoded left child page (`left_child_page_num` resolved through
`get_page`) with the cell's record columns, plus the page decoded from the
header's `rightmost_pointer`. -/
inductive IdxTree where
  | leaf (cells : List (List Column))
  | interior (cells : List (IdxTree × List Column)) (rightmost : IdxTree)
deriving Repr

/-- Modelled from the spec: the full `Column` enum with a derived
`PartialOrd`, which the range check of `query_interior_idx` compares with
`<=` / `>=`, lives in the revision of src/page.rs the rest of the crate
compiles against; the page.rs in src/ is an older revision (only `Str` and
`I8`, no ordering).  Variant (discriminant) order follows the spec's value
list (NULL, I8, I16, I24, the sentinels Zero and One, UTF-8 Text). -/
def columnRank : Column → Nat
  | .null => 0
  | .i8 _ => 1
  | .i16 _ => 2
  | .i24 _ => 3
  | .zero => 4
  | .one => 5
  | .str _ => 6

/-- Modelled from the spec: derived `PartialOrd` comparison on `Column`
(see `columnRank`).  Two values of the same integer variant compare by
payload, two texts compare byte-wise (Rust `String` order; for valid UTF-8
this agrees with Lean's `String` order), different variants compare by
discriminant. -/
def columnLE (a b : Column) : Bool :=
  match a, b with
  | .i8 x, .i8 y => decide (x ≤ y)
  | .i16 x, .i16 y => decide (x ≤ y)
  | .i24 x, .i24 y => decide (x ≤ y)
  | .str x, .str y => decide (x ≤ y)
  | _, _ => decide (columnRank a ≤ columnRank b)

/-- The row-id extraction applied to the trailing column of an index cell
(`src/db.rs` lines 589-594 and 677-682): `I8`, `I16`, `I24` widen to `i64`;
any other variant panics with "rowid is not int". -/
def rowid_of_column : Column → Option Int
  | .i8 i => some i
  | .i16 i => some i
  | .i24 i => some i
  | _ => none

/-- The per-cell match step shared by the index-page loops: when the cell's
first key column equals `Column::Str(looking_for)`, its trailing column is
converted to a row id (panicking when it is not an integer variant) and
contributed; otherwise nothing is contributed. -/
def idx_cell_match (cols : List Column) (k : String) : Except RtError (List Int) :=
  if (cols.head?).getD Column.null = Column.str k then
    match rowid_of_column ((cols.getLast?).getD Column.null) with
    | some r => .ok [r]
    | none => .error (.panicked "rowid is not int")
  else .ok []

/-- The cell loop of `Db::query_leaf_idx` (src/db.rs lines 665-685): per-cell
emptiness and two-column checks (`todo!` panics), then the match step. -/
def query_leaf_idx_cells : List (List Column) → String → Except RtError (List Int)
  | [], _ => .ok []
  | cols :: rest, k =>
    if cols.isEmpty then .error (.panicked "not yet implemented: no keys in cell")
    else if cols.length ≠ 2 then
      .error (.panicked "not yet implemented: more than one key in index")
    else do
      let m ← idx_cell_match cols k
      let rest' ← query_leaf_idx_cells rest k
      .ok (m ++ rest')

/-- `Db::query_leaf_idx` (src/db.rs lines 622-688): empty-page and
first-cell checks (panics), then the cell loop; always `Ok(Some(..))` when
it returns. -/
def query_leaf_idx (cells : List (List Column)) (k : String) :
    Except RtError (Option (List Int)) :=
  if cells.isEmpty then .error (.panicked "page has no cells")
  else if ((cells.head?).getD []).isEmpty then .error (.panicked "no keys in idx")
  else if ((cells.head?).getD []).length ≠ 2 then
    .error (.panicked "not yet implemented: more than one key in index")
  else do
    let res ← query_leaf_idx_cells cells k
    .ok (some res)

mutual

/-- `Db::_query_idx` (src/db.rs lines 526-535) restricted to index pages
(on table pages it panics; the tree type has no table constructors), fused
with `Db::query_interior_idx` (lines 537-620): empty-page and first-cell
checks, the `[first_key, last_key]` range check using the derived `Column`
ordering, then either the cell loop (in range; the rightmost child is not
visited) or only the rightmost child (out of range; the cells are not
visited). -/
def query_idx_page : IdxTree → String → Except RtError (Option (List Int))
  | .leaf cells, k => query_leaf_idx cells k
  | .interior cells rm, k =>
    if cells.isEmpty then .error (.panicked "page has no cells")
    else if (((cells.head?).map (fun c => c.2)).getD []).isEmpty then
      .error (.panicked "no keys in idx")
    else if (((cells.head?).map (fun c => c.2)).getD []).length ≠ 2 then
      .error (.panicked "not yet implemented: more than one key in index")
    else
      let first_key := (((((cells.head?).map (fun c => c.2)).getD []).head?).getD Column.null)
      let last_key := (((((cells.getLast?).map (fun c => c.2)).getD []).head?).getD Column.null)
      if columnLE first_key (Column.str k) && columnLE (Column.str k) last_key then do
        let res ← query_interior_idx_cells cells k
        .ok (some res)
      else do
        let sub ← query_idx_page rm k
        .ok (some (sub.getD []))

/-- The cell loop of `Db::query_interior_idx` (src/db.rs lines 577-606):
per-cell checks, then the match step — the cell's own row id is appended
BEFORE the recursion into its left child — then the left child recursion,
whose `Some` payload is appended. -/
def query_interior_idx_cells : List (IdxTree × List Column) → String → Except RtError (List Int)
  | [], _ => .ok []
  | (child, cols) :: rest, k =>
    if cols.isEmpty then .error (.panicked "not yet implemented: no keys in cell")
    else if cols.length ≠ 2 then
      .error (.panicked "not yet implemented: more than one key in index")
    else do
      let m ← idx_cell_match cols k
      let sub ← query_idx_page child k
      let rest' ← query_interior_idx_cells rest k
      .ok (m ++ sub.getD [] ++ rest')

end

mutual

/-- All cell records of an index tree, enumerated in the order the engine
appends matches: at an interior page each cell's own record precedes the
records beneath its left child, cells in array order, and the records
beneath the rightmost child come last. -/
def idx_entries_pre : IdxTree → List (List Column)
  | .leaf cells => cells
  | .interior cells rm => idx_entries_pre_cells cells ++ idx_entries_pre rm

def idx_entries_pre_cells : List (IdxTree × List Column) → List (List Column)
  | [] => []
  | (child, cols) :: rest => cols :: (idx_entries_pre child ++ idx_entries_pre_cells rest)

end

mutual

/-- All cell records of an index tree in in-order: the records beneath a
cell's left child precede the cell's own record, and the records beneath the
rightmost child come last.  (The order of the spec's "in-order traversal".) -/
def idx_entries_inorder : IdxTree → List (List Column)
  | .leaf cells => cells
  | .interior cells rm => idx_entries_inorder_cells cells ++ idx_entries_inorder rm

def idx_entries_inorder_cells : List (IdxTree × List Column) → List (List Column)
  | [] => []
  | (child, cols) :: rest =>
    (idx_entries_inorder child ++ [cols]) ++ idx_entries_inorder_cells rest

end

mutual

/-- The cell records of the LEAF pages of an index tree only, in in-order.
(The population the spec's completeness property ranges over.) -/
def idx_leaf_entries : IdxTree → List (List Column)
  | .leaf cells => cells
  | .interior cells rm => idx_leaf_entries_cells cells ++ idx_leaf_entries rm

def idx_leaf_entries_cells : List (IdxTree × List Column) → List (List Column)
  | [] => []
  | (child, cols) :: rest => idx_leaf_entries child ++ idx_leaf_entries_cells rest

end

mutual

/-- Every page of an index tree (the tree itself and, recursively, the pages
beneath every interior cell and the rightmost child). -/
def idx_subpages : IdxTree → List IdxTree
  | .leaf cells => [.leaf cells]
  | .interior cells rm =>
    .interior cells rm :: (idx_subpages_cells cells ++ idx_subpages rm)

def idx_subpages_cells : List (IdxTree × List Column) → List IdxTree
  | [] => []
  | (child, _) :: rest => idx_subpages child ++ idx_subpages_cells rest

end

/-- The cell records sitting directly on a page. -/
def idx_page_cells : IdxTree → List (List Column)
  | .leaf cells => cells
  | .interior cells _ => cells.map (fun c => c.2)

/-- Follows the spec's words: "the set of trailing row ids of all … cells
whose first key column equals k" over a given enumeration of cell records. -/
def match_rowids (entries : List (List Column)) (k : String) : List Int :=
  entries.filterMap (fun cols =>
    if cols.head? = some (Column.str k) then (cols.getLast?).bind rowid_of_column else none)

/-- A well-formed index cell for this engine's query surface: exactly two
record columns, a text key followed by an integer-variant row id. -/
def idx_cell_wf (cols : List Column) : Prop :=
  ∃ s r, cols = [Column.str s, r] ∧ (rowid_of_column r).isSome

/-- The key of a well-formed index cell (default "" otherwise). -/
def cell_key (cols : List Column) : String :=
  match cols.head? with
  | some (Column.str s) => s
  | _ => ""

/-- First key of a page (the first cell's first key column). -/
def idx_first_key (p : IdxTree) : String := cell_key (((idx_page_cells p).head?).getD [])

/-- Last key of a page (the last cell's first key column). -/
def idx_last_key (p : IdxTree) : String := cell_key (((idx_page_cells p).getLast?).getD [])

/-- Well-formedness of a whole index tree: every page is non-empty and every
cell on every page is well-formed. -/
def idx_wf (t : IdxTree) : Prop :=
  ∀ p ∈ idx_subpages t, idx_page_cells p ≠ [] ∧ ∀ c ∈ idx_page_cells p, idx_cell_wf c

/-- The spec's index invariant: keys are non-decreasing across an in-order
traversal. -/
def idx_sorted (t : IdxTree) : Prop :=
  List.Pairwise (fun a b => a ≤ b) ((idx_entries_inorder t).map cell_key)

/-- The needle never falls on the blind spots of the interior range check:
on every interior page it either lies in `[first_key, last_key)` or is
strictly greater than `last_key`. -/
def idx_range_ok (t : IdxTree) (k : String) : Prop :=
  ∀ p ∈ idx_subpages t, ∀ cells rm, p = IdxTree.interior cells rm →
    (idx_first_key p ≤ k ∧ k < idx_last_key p) ∨ idx_last_key p < k

theorem idx_tree_ind (P : IdxTree → Prop)
    (hleaf : ∀ cells, P (.leaf cells))
    (hint : ∀ cells rm, (∀ pr ∈ cells, P pr.1) → P rm → P (.interior cells rm)) :
    ∀ t, P t := by
  have H : ∀ n t, sizeOf t ≤ n → P t := by
    intro n
    induction n with
    | zero =>
      intro t ht
      cases t <;> simp at ht
    | succ n ih =>
      intro t ht
      cases t with
      | leaf cells => exact hleaf cells
      | interior cells rm =>
        refine hint cells rm ?_ ?_
        · intro pr hpr
          obtain ⟨c, cols⟩ := pr
          have h1 : sizeOf (c, cols) < sizeOf cells := List.sizeOf_lt_of_mem hpr
          have h2 : sizeOf (IdxTree.interior cells rm) = 1 + sizeOf cells + sizeOf rm := by
            simp
          have h3 : sizeOf (c, cols) = 1 + sizeOf c + sizeOf cols := by simp
          show P c
          apply ih
          simp only [h2] at ht
          simp only [h3] at h1
          omega
        · apply ih
          have h2 : sizeOf (IdxTree.interior cells rm) = 1 + sizeOf cells + sizeOf rm := by
            simp
          simp only [h2] at ht
          omega
  exact fun t => H (sizeOf t) t le_rfl

theorem match_rowids_append (l1 l2 : List (List Column)) (k : String) :
    match_rowids (l1 ++ l2) k = match_rowids l1 k ++ match_rowids l2 k := by
  simp [match_rowids]

theorem match_rowids_nil (entries : List (List Column)) (k : String)
    (h : ∀ c ∈ entries, c.head? ≠ some (Column.str k)) :
    match_rowids entries k = [] := by
  unfold match_rowids
  rw [List.filterMap_eq_nil_iff]
  intro c hc
  simp [h c hc]

theorem idx_cell_wf_head (cols : List Column) (h : idx_cell_wf cols) :
    cols.head? = some (Column.str (cell_key cols)) := by
  obtain ⟨s, r, rfl, _⟩ := h
  simp [cell_key]

theorem inorder_cells_ne_nil (cells : List (IdxTree × List Column)) (h : cells ≠ []) :
    idx_entries_inorder_cells cells ≠ [] := by
  cases cells with
  | nil => exact absurd rfl h
  | cons pr rest =>
    obtain ⟨c, cl⟩ := pr
    simp [idx_entries_inorder_cells]

theorem pairwise_le_getLast {l : List String} {m : String}
    (hp : List.Pairwise (fun a b => a ≤ b) l) (hl : l.getLast? = some m) :
    ∀ a ∈ l, a ≤ m := by
  induction l with
  | nil => simp at hl
  | cons x xs ih =>
    rw [List.pairwise_cons] at hp
    intro a ha
    rcases List.mem_cons.mp ha with rfl | hmem
    · have hm : m ∈ a :: xs := List.mem_of_getLast?_eq_some hl
      rcases List.mem_cons.mp hm with rfl | hm2
      · exact le_refl _
      · exact hp.1 m hm2
    · have hl' : xs.getLast? = some m := by
        cases xs with
        | nil => simp at hmem
        | cons y ys => rw [List.getLast?_cons_cons] at hl; exact hl
      exact ih hp.2 hl' a hmem

theorem mem_subpages_cells_of_child {cells : List (IdxTree × List Column)}
    {child : IdxTree} {cols : List Column} (hmem : (child, cols) ∈ cells) :
    ∀ p ∈ idx_subpages child, p ∈ idx_subpages_cells cells := by
  induction cells with
  | nil => simp at hmem
  | cons pr rest ih =>
    obtain ⟨c, cl⟩ := pr
    intro p hp
    simp only [idx_subpages_cells, List.mem_append]
    rcases List.mem_cons.mp hmem with heq | hmem2
    · obtain ⟨rfl, rfl⟩ := Prod.mk.inj heq
      exact Or.inl hp
    · exact Or.inr (ih hmem2 p hp)

theorem subpages_child_subset {cells : List (IdxTree × List Column)} {rm child : IdxTree}
    {cols : List Column} (hmem : (child, cols) ∈ cells) :
    ∀ p ∈ idx_subpages child, p ∈ idx_subpages (IdxTree.interior cells rm) := by
  intro p hp
  simp only [idx_subpages, List.mem_cons, List.mem_append]
  exact Or.inr (Or.inl (mem_subpages_cells_of_child hmem p hp))

theorem subpages_rm_subset {cells : List (IdxTree × List Column)} {rm : IdxTree} :
    ∀ p ∈ idx_subpages rm, p ∈ idx_subpages (IdxTree.interior cells rm) := by
  intro p hp
  simp only [idx_subpages, List.mem_cons, List.mem_append]
  exact Or.inr (Or.inr hp)

theorem self_mem_subpages (t : IdxTree) : t ∈ idx_subpages t := by
  cases t <;> simp [idx_subpages]

theorem idx_wf_child {cells : List (IdxTree × List Column)} {rm child : IdxTree}
    {cols : List Column} (h : idx_wf (.interior cells rm)) (hmem : (child, cols) ∈ cells) :
    idx_wf child :=
  fun p hp => h p (subpages_child_subset hmem p hp)

theorem idx_wf_rm {cells : List (IdxTree × List Column)} {rm : IdxTree}
    (h : idx_wf (.interior cells rm)) : idx_wf rm :=
  fun p hp => h p (subpages_rm_subset p hp)

theorem idx_range_ok_child {cells : List (IdxTree × List Column)} {rm child : IdxTree}
    {cols : List Column} {k : String} (h : idx_range_ok (.interior cells rm) k)
    (hmem : (child, cols) ∈ cells) : idx_range_ok child k :=
  fun p hp => h p (subpages_child_subset hmem p hp)

theorem idx_range_ok_rm {cells : List (IdxTree × List Column)} {rm : IdxTree} {k : String}
    (h : idx_range_ok (.interior cells rm) k) : idx_range_ok rm k :=
  fun p hp => h p (subpages_rm_subset p hp)

theorem inorder_cells_cons (pr : IdxTree × List Column)
    (rest : List (IdxTree × List Column)) :
    idx_entries_inorder_cells (pr :: rest) =
      (idx_entries_inorder pr.1 ++ [pr.2]) ++ idx_entries_inorder_cells rest := by
  obtain ⟨c, cl⟩ := pr
  simp only [idx_entries_inorder_cells]

theorem inorder_sublist_cells {cells : List (IdxTree × List Column)} {child : IdxTree}
    {cols : List Column} (hmem : (child, cols) ∈ cells) :
    List.Sublist (idx_entries_inorder child) (idx_entries_inorder_cells cells) := by
  induction cells with
  | nil => simp at hmem
  | cons pr rest ih =>
    obtain ⟨c, cl⟩ := pr
    simp only [idx_entries_inorder_cells]
    rcases List.mem_cons.mp hmem with heq | hmem2
    · obtain ⟨rfl, rfl⟩ := Prod.mk.inj heq
      exact ((List.sublist_append_left _ _).trans (List.sublist_append_left _ _))
    · exact (ih hmem2).trans (List.sublist_append_right _ _)

theorem idx_sorted_child {cells : List (IdxTree × List Column)} {rm child : IdxTree}
    {cols : List Column} (hs : idx_sorted (.interior cells rm))
    (hmem : (child, cols) ∈ cells) : idx_sorted child := by
  unfold idx_sorted at *
  refine List.Pairwise.sublist (List.Sublist.map _ ?_) hs
  simp only [idx_entries_inorder]
  exact (inorder_sublist_cells hmem).trans (List.sublist_append_left _ _)

theorem idx_sorted_rm {cells : List (IdxTree × List Column)} {rm : IdxTree}
    (hs : idx_sorted (.interior cells rm)) : idx_sorted rm := by
  unfold idx_sorted at *
  refine List.Pairwise.sublist (List.Sublist.map _ ?_) hs
  simp only [idx_entries_inorder]
  exact List.sublist_append_right _ _

theorem inorder_cells_getLast :
    ∀ {cells : List (IdxTree × List Column)} {lc : IdxTree} {lcols : List Column},
    cells.getLast? = some (lc, lcols) →
    (idx_entries_inorder_cells cells).getLast? = some lcols := by
  intro cells
  induction cells with
  | nil => intro lc lcols h; simp at h
  | cons pr rest ih =>
    intro lc lcols h
    obtain ⟨c, cl⟩ := pr
    cases hrest : rest with
    | nil =>
      subst hrest
      simp only [List.getLast?_singleton, Option.some.injEq] at h
      obtain ⟨rfl, rfl⟩ := Prod.mk.inj h.symm
      simp only [idx_entries_inorder_cells, List.append_nil]
      exact List.getLast?_concat _
    | cons pr2 rest2 =>
      subst hrest
      have h' : (pr2 :: rest2).getLast? = some (lc, lcols) := by
        rw [List.getLast?_cons_cons] at h; exact h
      have hne : idx_entries_inorder_cells (pr2 :: rest2) ≠ [] :=
        inorder_cells_ne_nil _ (by simp)
      rw [inorder_cells_cons, List.getLast?_append_of_ne_nil _ hne]
      exact ih h'

theorem entries_pre_cells_perm {cells : List (IdxTree × List Column)}
    (hc : ∀ pr ∈ cells, (idx_entries_pre pr.1).Perm (idx_entries_inorder pr.1)) :
    (idx_entries_pre_cells cells).Perm (idx_entries_inorder_cells cells) := by
  induction cells with
  | nil => simp [idx_entries_pre_cells, idx_entries_inorder_cells]
  | cons pr rest ih =>
    obtain ⟨c, cl⟩ := pr
    simp only [idx_entries_pre_cells, idx_entries_inorder_cells]
    have h1 : (idx_entries_pre c).Perm (idx_entries_inorder c) := hc (c, cl) (by simp)
    have h2 := ih (fun pr hpr => hc pr (List.mem_cons_of_mem _ hpr))
    have hstep : (cl :: (idx_entries_inorder c ++ idx_entries_inorder_cells rest)).Perm
        ((idx_entries_inorder c ++ [cl]) ++ idx_entries_inorder_cells rest) := by
      rw [List.append_assoc, List.singleton_append]
      exact List.perm_middle.symm
    exact (List.Perm.cons _ (h1.append h2)).trans hstep

theorem entries_pre_perm_inorder : ∀ t : IdxTree,
    (idx_entries_pre t).Perm (idx_entries_inorder t) := by
  apply idx_tree_ind
  · intro cells
    simp [idx_entries_pre, idx_entries_inorder]
  · intro cells rm hc hrm
    simp only [idx_entries_pre, idx_entries_inorder]
    exact List.Perm.append (entries_pre_cells_perm hc) hrm

theorem inorder_cells_mem (cells : List (IdxTree × List Column)) :
    ∀ c ∈ idx_entries_inorder_cells cells,
    (∃ pr ∈ cells, c ∈ idx_entries_inorder pr.1) ∨ (∃ pr ∈ cells, c = pr.2) := by
  induction cells with
  | nil => simp [idx_entries_inorder_cells]
  | cons pr rest ih =>
    obtain ⟨ch, cl⟩ := pr
    intro c hc
    simp only [idx_entries_inorder_cells, List.mem_append, List.mem_cons,
      List.mem_singleton] at hc
    rcases hc with (hc1 | hc2) | hc3
    · exact Or.inl ⟨(ch, cl), by simp, hc1⟩
    · have hccl : c = cl := by
        rcases hc2 with h | h
        · exact h
        · simp at h
      exact Or.inr ⟨(ch, cl), by simp, hccl⟩
    · rcases ih c hc3 with ⟨pr2, hpr2, hcpr⟩ | ⟨pr2, hpr2, hcpr⟩
      · exact Or.inl ⟨pr2, List.mem_cons_of_mem _ hpr2, hcpr⟩
      · exact Or.inr ⟨pr2, List.mem_cons_of_mem _ hpr2, hcpr⟩

theorem inorder_mem_pages : ∀ t : IdxTree, ∀ c ∈ idx_entries_inorder t,
    ∃ p ∈ idx_subpages t, c ∈ idx_page_cells p := by
  apply idx_tree_ind (fun t => ∀ c ∈ idx_entries_inorder t,
    ∃ p ∈ idx_subpages t, c ∈ idx_page_cells p)
  · intro cells c hc
    refine ⟨.leaf cells, self_mem_subpages _, ?_⟩
    simpa [idx_page_cells, idx_entries_inorder] using hc
  · intro cells rm hcs hrm c hc
    simp only [idx_entries_inorder, List.mem_append] at hc
    rcases hc with hc1 | hc2
    · rcases inorder_cells_mem cells c hc1 with ⟨pr, hpr, hcpr⟩ | ⟨pr, hpr, hcpr⟩
      · obtain ⟨p, hp, hcp⟩ := hcs pr hpr c hcpr
        obtain ⟨ch, cl⟩ := pr
        exact ⟨p, subpages_child_subset hpr p hp, hcp⟩
      · refine ⟨.interior cells rm, self_mem_subpages _, ?_⟩
        simp only [idx_page_cells, List.mem_map]
        exact ⟨pr, hpr, hcpr.symm⟩
    · obtain ⟨p, hp, hcp⟩ := hrm c hc2
      exact ⟨p, subpages_rm_subset p hp, hcp⟩

theorem entries_inorder_wf {t : IdxTree} (hwf : idx_wf t) :
    ∀ c ∈ idx_entries_inorder t, idx_cell_wf c := by
  intro c hc
  obtain ⟨p, hp, hcp⟩ := inorder_mem_pages t c hc
  exact (hwf p hp).2 c hcp

theorem sorted_bounds {cells : List (IdxTree × List Column)} {rm : IdxTree}
    {lc : IdxTree} {lcols : List Column}
    (hs : idx_sorted (.interior cells rm)) (hlast : cells.getLast? = some (lc, lcols)) :
    (∀ c ∈ idx_entries_inorder_cells cells, cell_key c ≤ cell_key lcols) ∧
    (∀ c ∈ idx_entries_inorder rm, cell_key lcols ≤ cell_key c) := by
  unfold idx_sorted at hs
  simp only [idx_entries_inorder, List.map_append] at hs
  have hp := List.pairwise_append.mp hs
  have hAlast : (idx_entries_inorder_cells cells).getLast? = some lcols :=
    inorder_cells_getLast hlast
  have hAlast2 : ((idx_entries_inorder_cells cells).map cell_key).getLast? =
      some (cell_key lcols) := by
    rw [List.getLast?_map, hAlast]
    rfl
  constructor
  · intro c hc
    exact pairwise_le_getLast hp.1 hAlast2 (cell_key c) (List.mem_map_of_mem _ hc)
  · intro c hc
    exact hp.2.2 (cell_key lcols)
      (List.mem_map_of_mem _ (List.mem_of_getLast?_eq_some hAlast))
      (cell_key c) (List.mem_map_of_mem _ hc)

theorem query_leaf_idx_cells_eq (k : String) :
    ∀ cells : List (List Column), (∀ c ∈ cells, idx_cell_wf c) →
    query_leaf_idx_cells cells k = .ok (match_rowids cells k) := by
  intro cells
  induction cells with
  | nil => intro h; simp [query_leaf_idx_cells, match_rowids]
  | cons cols rest ih =>
    intro h
    obtain ⟨s, r, hcols, hr⟩ := h _ (List.mem_cons_self _ _)
    subst hcols
    obtain ⟨rv, hrv⟩ := Option.isSome_iff_exists.mp hr
    have hrest := ih (fun c hc => h c (List.mem_cons_of_mem _ hc))
    by_cases hk : s = k
    · subst hk
      simp [query_leaf_idx_cells, idx_cell_match, match_rowids, hrest, hrv,
        Bind.bind, Except.bind]
    · simp [query_leaf_idx_cells, idx_cell_match, match_rowids, hrest, hrv, hk,
        Bind.bind, Except.bind]

theorem query_interior_idx_cells_eq (k : String) :
    ∀ cells : List (IdxTree × List Column),
    (∀ pr ∈ cells, idx_cell_wf pr.2) →
    (∀ pr ∈ cells,
      query_idx_page pr.1 k = .ok (some (match_rowids (idx_entries_pre pr.1) k))) →
    query_interior_idx_cells cells k = .ok (match_rowids (idx_entries_pre_cells cells) k) := by
  intro cells
  induction cells with
  | nil => intro _ _; simp [query_interior_idx_cells, idx_entries_pre_cells, match_rowids]
  | cons pr rest ih =>
    intro hwf hIH
    obtain ⟨child, cols⟩ := pr
    obtain ⟨s, r, hcols, hr⟩ := hwf _ (List.mem_cons_self _ _)
    simp only at hcols
    subst hcols
    obtain ⟨rv, hrv⟩ := Option.isSome_iff_exists.mp hr
    have hchild := hIH _ (List.mem_cons_self _ _)
    simp only at hchild
    have hrest := ih (fun pr hpr => hwf pr (List.mem_cons_of_mem _ hpr))
      (fun pr hpr => hIH pr (List.mem_cons_of_mem _ hpr))
    by_cases hk : s = k
    · subst hk
      simp [query_interior_idx_cells, idx_cell_match, idx_entries_pre_cells,
        match_rowids, hchild, hrest, hrv, Bind.bind, Except.bind]
    · simp [query_interior_idx_cells, idx_cell_match, idx_entries_pre_cells,
        match_rowids, hchild, hrest, hrv, hk, Bind.bind, Except.bind]

theorem query_idx_page_eq (k : String) : ∀ t : IdxTree,
    idx_wf t → idx_sorted t → idx_range_ok t k →
    query_idx_page t k = .ok (some (match_rowids (idx_entries_pre t) k)) := by
  apply idx_tree_ind (fun t => idx_wf t → idx_sorted t → idx_range_ok t k →
    query_idx_page t k = .ok (some (match_rowids (idx_entries_pre t) k)))
  · intro cells hwf hs hr
    have hself := hwf (.leaf cells) (self_mem_subpages _)
    have hne : cells ≠ [] := by simpa [idx_page_cells] using hself.1
    have hcw : ∀ c ∈ cells, idx_cell_wf c := by
      intro c hc
      exact hself.2 c (by simpa [idx_page_cells] using hc)
    have hloop := query_leaf_idx_cells_eq k cells hcw
    obtain ⟨c0, rest, rfl⟩ := List.exists_cons_of_ne_nil hne
    obtain ⟨s, r, hc0, _⟩ := hcw _ (List.mem_cons_self _ _)
    subst hc0
    simp [query_idx_page, query_leaf_idx, idx_entries_pre, hloop,
      Bind.bind, Except.bind]
  · intro cells rm hcs hrm hwf hs hr
    have hself := hwf (.interior cells rm) (self_mem_subpages _)
    have hne : cells ≠ [] := by
      intro h
      subst h
      exact hself.1 (by simp [idx_page_cells])
    have hcw : ∀ pr ∈ cells, idx_cell_wf pr.2 := by
      intro pr hpr
      refine hself.2 pr.2 ?_
      simp only [idx_page_cells, List.mem_map]
      exact ⟨pr, hpr, rfl⟩
    have hlastsome : cells.getLast?.isSome := List.getLast?_isSome.mpr hne
    obtain ⟨⟨lc, lcols⟩, hlast⟩ := Option.isSome_iff_exists.mp hlastsome
    have hlmem : (lc, lcols) ∈ cells := List.mem_of_getLast?_eq_some hlast
    obtain ⟨sl, rl, hlcols, hrl⟩ := hcw _ hlmem
    simp only at hlcols
    subst hlcols
    have hrange := hr (.interior cells rm) (self_mem_subpages _) cells rm rfl
    have hIH : ∀ pr ∈ cells,
        query_idx_page pr.1 k = .ok (some (match_rowids (idx_entries_pre pr.1) k)) := by
      intro pr hpr
      obtain ⟨ch, cl⟩ := pr
      exact hcs (ch, cl) hpr (idx_wf_child hwf hpr) (idx_sorted_child hs hpr)
        (idx_range_ok_child hr hpr)
    have hcellsEq := query_interior_idx_cells_eq k cells hcw hIH
    have hrmEq := hrm (idx_wf_rm hwf) (idx_sorted_rm hs) (idx_range_ok_rm hr)
    obtain ⟨⟨c0, cols0⟩, rest, rfl⟩ := List.exists_cons_of_ne_nil hne
    obtain ⟨s0, r0, hcols0, hr0⟩ := hcw _ (List.mem_cons_self _ _)
    simp only at hcols0
    subst hcols0
    have hlk : idx_last_key (.interior ((c0, [Column.str s0, r0]) :: rest) rm) = sl := by
      simp only [idx_last_key, idx_page_cells]
      rw [List.getLast?_map, hlast]
      simp [cell_key]
    have hfk : idx_first_key (.interior ((c0, [Column.str s0, r0]) :: rest) rm) = s0 := by
      simp [idx_first_key, idx_page_cells, cell_key]
    rw [hfk, hlk] at hrange
    rcases hrange with ⟨h1, h2⟩ | hgt
    · -- in range: the cell loop runs, the rightmost subtree holds no match
      have hcond : (columnLE (Column.str s0) (Column.str k)
          && columnLE (Column.str k) (Column.str sl)) = true := by
        simp only [columnLE, Bool.and_eq_true, decide_eq_true_eq]
        exact ⟨h1, le_of_lt h2⟩
      have hrmnil : match_rowids (idx_entries_pre rm) k = [] := by
        apply match_rowids_nil
        intro c hc
        have hcin : c ∈ idx_entries_inorder rm := (entries_pre_perm_inorder rm).mem_iff.mp hc
        have hcwf : idx_cell_wf c := entries_inorder_wf (idx_wf_rm hwf) c hcin
        rw [idx_cell_wf_head c hcwf]
        intro heq
        have hkey : cell_key c = k := by simpa using heq
        have hbound := (sorted_bounds hs hlast).2 c hcin
        have hsl : cell_key [Column.str sl, rl] = sl := by simp [cell_key]
        rw [hsl, hkey] at hbound
        exact absurd (lt_of_lt_of_le h2 hbound) (lt_irrefl k)
      have hlaste : (((Option.map (fun (c : IdxTree × List Column) => c.2)
          (((c0, [Column.str s0, r0]) :: rest).getLast?)).getD []).head?.getD Column.null)
          = Column.str sl := by
        rw [hlast]
        rfl
      simp only [query_idx_page]
      simp [hlaste, hcond, hcellsEq, Bind.bind, Except.bind, idx_entries_pre,
        match_rowids_append, hrmnil]
    · -- needle beyond the last key: only the rightmost subtree is visited
      have hcond : (columnLE (Column.str s0) (Column.str k)
          && columnLE (Column.str k) (Column.str sl)) = false := by
        simp only [columnLE, Bool.and_eq_false_iff, decide_eq_false_iff_not]
        exact Or.inr (not_le.mpr hgt)
      have hcellsnil : match_rowids
          (idx_entries_pre_cells ((c0, [Column.str s0, r0]) :: rest)) k = [] := by
        apply match_rowids_nil
        intro c hc
        have hperm : (idx_entries_pre_cells ((c0, [Column.str s0, r0]) :: rest)).Perm
            (idx_entries_inorder_cells ((c0, [Column.str s0, r0]) :: rest)) :=
          entries_pre_cells_perm (fun pr _ => entries_pre_perm_inorder pr.1)
        have hcin : c ∈ idx_entries_inorder_cells ((c0, [Column.str s0, r0]) :: rest) :=
          hperm.mem_iff.mp hc
        have hcin2 : c ∈ idx_entries_inorder
            (.interior ((c0, [Column.str s0, r0]) :: rest) rm) := by
          simp only [idx_entries_inorder, List.mem_append]
          exact Or.inl hcin
        have hcwf : idx_cell_wf c := entries_inorder_wf hwf c hcin2
        rw [idx_cell_wf_head c hcwf]
        intro heq
        have hkey : cell_key c = k := by simpa using heq
        have hbound := (sorted_bounds hs hlast).1 c hcin
        have hsl : cell_key [Column.str sl, rl] = sl := by simp [cell_key]
        rw [hsl, hkey] at hbound
        exact absurd (lt_of_le_of_lt hbound hgt) (lt_irrefl k)
      have hlaste : (((Option.map (fun (c : IdxTree × List Column) => c.2)
          (((c0, [Column.str s0, r0]) :: rest).getLast?)).getD []).head?.getD Column.null)
          = Column.str sl := by
        rw [hlast]
        rfl
      simp only [query_idx_page]
      simp [hlaste, hcond, hrmEq, Bind.bind, Except.bind, idx_entries_pre,
        match_rowids_append, hcellsnil]

/-- A three-page index tree: the root's only cell has key "b" (row id 2) and
its left child holds the key "a" (row id 1); the rightmost child holds
"c" (row id 3).  Looking up "a" falls below the root's first key, so the
engine visits only the rightmost child and returns nothing. -/
def c1tree : IdxTree :=
  .interior [(.leaf [[Column.str "a", Column.i8 1]], [Column.str "b", Column.i8 2])]
    (.leaf [[Column.str "c", Column.i8 3]])

/-- C1 counterexample: on `c1tree` the lookup for "a" returns the empty row-id
list although the leaf cell ("a", 1) matches — the claimed set equality with
the leaf matches fails (the set of matching leaf trailing row ids is [1]). -/
theorem claim_c1_counterexample :
    query_idx_page c1tree "a" = .ok (some []) ∧
    match_rowids (idx_leaf_entries c1tree) "a" = [1] := by
  have hba : ¬ (("b" : String) ≤ "a") := by simp; decide
  constructor
  · simp [c1tree, query_idx_page, query_leaf_idx, query_leaf_idx_cells, idx_cell_match,
      columnLE, rowid_of_column, hba, Bind.bind, Except.bind]
  · simp [c1tree, idx_leaf_entries, idx_leaf_entries_cells, match_rowids, rowid_of_column]

/-- C1 (amended): for a well-formed index tree (non-empty pages; every
cell a text key followed by an integer row id) satisfying the sortedness
invariant, and a needle that on every interior page either lies in
`[first_key, last_key)` or exceeds `last_key`, the lookup returns exactly
the set of trailing row ids of all index cells — leaf AND interior — whose
first key column equals the needle. -/
theorem claim_c1_index_completeness (t : IdxTree) (k : String)
    (hwf : idx_wf t) (hs : idx_sorted t) (hr : idx_range_ok t k) :
    ∃ l : List Int, query_idx_page t k = .ok (some l) ∧
      ∀ r : Int, r ∈ l ↔ r ∈ match_rowids (idx_entries_pre t) k :=
  ⟨match_rowids (idx_entries_pre t) k, query_idx_page_eq k t hwf hs hr,
    fun _ => Iff.rfl⟩

/-- Witness tree for C1: root keys "b", "d"; left subtrees hold "b" and two
"c" entries; the rightmost child holds "d" and "e". -/
def wit1 : IdxTree :=
  .interior
    [(.leaf [[Column.str "b", Column.i8 1]], [Column.str "b", Column.i8 2]),
     (.leaf [[Column.str "c", Column.i8 3], [Column.str "c", Column.i8 4]],
       [Column.str "d", Column.i8 5])]
    (.leaf [[Column.str "d", Column.i8 6], [Column.str "e", Column.i8 7]])

theorem wit1_subpages : idx_subpages wit1 =
    [wit1, .leaf [[Column.str "b", Column.i8 1]],
     .leaf [[Column.str "c", Column.i8 3], [Column.str "c", Column.i8 4]],
     .leaf [[Column.str "d", Column.i8 6], [Column.str "e", Column.i8 7]]] := by
  simp [wit1, idx_subpages, idx_subpages_cells]

theorem wit1_wf : idx_wf wit1 := by
  intro p hp
  rw [wit1_subpages] at hp
  fin_cases hp
  · refine ⟨by simp [wit1, idx_page_cells], ?_⟩
    intro c hc
    simp only [wit1, idx_page_cells, List.map_cons, List.map_nil, List.mem_cons,
      List.not_mem_nil, or_false] at hc
    rcases hc with rfl | rfl
    · exact ⟨"b", Column.i8 2, rfl, rfl⟩
    · exact ⟨"d", Column.i8 5, rfl, rfl⟩
  · refine ⟨by simp [idx_page_cells], ?_⟩
    intro c hc
    simp only [idx_page_cells, List.mem_cons, List.not_mem_nil, or_false] at hc
    subst hc
    exact ⟨"b", Column.i8 1, rfl, rfl⟩
  · refine ⟨by simp [idx_page_cells], ?_⟩
    intro c hc
    simp only [idx_page_cells, List.mem_cons, List.not_mem_nil, or_false] at hc
    rcases hc with rfl | rfl
    · exact ⟨"c", Column.i8 3, rfl, rfl⟩
    · exact ⟨"c", Column.i8 4, rfl, rfl⟩
  · refine ⟨by simp [idx_page_cells], ?_⟩
    intro c hc
    simp only [idx_page_cells, List.mem_cons, List.not_mem_nil, or_false] at hc
    rcases hc with rfl | rfl
    · exact ⟨"d", Column.i8 6, rfl, rfl⟩
    · exact ⟨"e", Column.i8 7, rfl, rfl⟩

theorem wit1_sorted : idx_sorted wit1 := by
  unfold idx_sorted
  have hkeys : (idx_entries_inorder wit1).map cell_key =
      ["b", "b", "c", "c", "d", "d", "e"] := by
    simp [wit1, idx_entries_inorder, idx_entries_inorder_cells, cell_key]
  rw [hkeys]
  have hbc : ("b" : String) ≤ "c" := by simp; decide
  have hbd : ("b" : String) ≤ "d" := by simp; decide
  have hbe : ("b" : String) ≤ "e" := by simp; decide
  have hcd : ("c" : String) ≤ "d" := by simp; decide
  have hce : ("c" : String) ≤ "e" := by simp; decide
  have hde : ("d" : String) ≤ "e" := by simp; decide
  refine List.Pairwise.cons ?_ (List.Pairwise.cons ?_ (List.Pairwise.cons ?_
    (List.Pairwise.cons ?_ (List.Pairwise.cons ?_ (List.Pairwise.cons ?_
    (List.Pairwise.cons ?_ List.Pairwise.nil)))))) <;>
    intro x hx <;> fin_cases hx <;>
    first
      | exact le_refl _
      | exact hbc
      | exact hbd
      | exact hbe
      | exact hcd
      | exact hce
      | exact hde

theorem wit1_range : idx_range_ok wit1 "c" := by
  intro p hp cells rm hpe
  rw [wit1_subpages] at hp
  fin_cases hp
  · left
    constructor
    · have : idx_first_key wit1 = "b" := by
        simp [wit1, idx_first_key, idx_page_cells, cell_key]
      rw [this]
      simp
      decide
    · have : idx_last_key wit1 = "d" := by
        simp [wit1, idx_last_key, idx_page_cells, cell_key]
      rw [this]
      simp
      decide
  · simp [wit1] at hpe
  · simp [wit1] at hpe
  · simp [wit1] at hpe

/-- Witness for C1: the hypotheses hold at `wit1` with needle "c", and the
lookup agrees with the set of matching cells (it returns [3, 4]). -/
theorem claim_c1_index_completeness_witness :
    idx_wf wit1 ∧ idx_sorted wit1 ∧ idx_range_ok wit1 "c" ∧
    (∃ l : List Int, query_idx_page wit1 "c" = .ok (some l) ∧
      ∀ r : Int, r ∈ l ↔ r ∈ match_rowids (idx_entries_pre wit1) "c") :=
  ⟨wit1_wf, wit1_sorted, wit1_range,
    claim_c1_index_completeness wit1 "c" wit1_wf wit1_sorted wit1_range⟩

/-- A three-page index tree whose root cell (key "a", row id 2) has a left
child leaf holding ("a", 1). -/
def c3tree : IdxTree :=
  .interior [(.leaf [[Column.str "a", Column.i8 1]], [Column.str "a", Column.i8 2])]
    (.leaf [[Column.str "b", Column.i8 3]])

/-- C3 counterexample: on `c3tree` the lookup for "a" returns [2, 1] — the
interior cell's own row id precedes the row id found beneath its left child —
while the in-order traversal of the matching entries is [1, 2]. -/
theorem claim_c3_counterexample :
    query_idx_page c3tree "a" = .ok (some [2, 1]) ∧
    match_rowids (idx_entries_inorder c3tree) "a" = [1, 2] ∧
    ([2, 1] : List Int) ≠ [1, 2] := by
  refine ⟨?_, ?_, by decide⟩
  · simp [c3tree, query_idx_page, query_leaf_idx, query_leaf_idx_cells,
      query_interior_idx_cells, idx_cell_match, columnLE, rowid_of_column,
      Bind.bind, Except.bind]
  · simp [c3tree, idx_entries_inorder, idx_entries_inorder_cells, match_rowids,
      rowid_of_column]

/-- C3 (amended): under the hypotheses of the amended C1, the row-id vector
returned by the lookup is ordered by the traversal in which a cell's OWN
entry precedes the entries beneath its left child (cells in array order,
the rightmost subtree's entries last) — not by in-order traversal — and
duplicate row ids present in the index are preserved: the result is exactly
the ordered match list of that enumeration. -/
theorem claim_c3_result_order (t : IdxTree) (k : String)
    (hwf : idx_wf t) (hs : idx_sorted t) (hr : idx_range_ok t k) :
    query_idx_page t k = .ok (some (match_rowids (idx_entries_pre t) k)) :=
  query_idx_page_eq k t hwf hs hr

/-- Witness tree for C3: duplicate entries ("b", 1) in the first left child,
plus the root cell ("b", 2). -/
def wit3 : IdxTree :=
  .interior
    [(.leaf [[Column.str "b", Column.i8 1], [Column.str "b", Column.i8 1]],
       [Column.str "b", Column.i8 2]),
     (.leaf [[Column.str "c", Column.i8 9]], [Column.str "c", Column.i8 10])]
    (.leaf [[Column.str "c", Column.i8 11]])

theorem wit3_subpages : idx_subpages wit3 =
    [wit3, .leaf [[Column.str "b", Column.i8 1], [Column.str "b", Column.i8 1]],
     .leaf [[Column.str "c", Column.i8 9]],
     .leaf [[Column.str "c", Column.i8 11]]] := by
  simp [wit3, idx_subpages, idx_subpages_cells]

theorem wit3_wf : idx_wf wit3 := by
  intro p hp
  rw [wit3_subpages] at hp
  fin_cases hp
  · refine ⟨by simp [wit3, idx_page_cells], ?_⟩
    intro c hc
    simp only [wit3, idx_page_cells, List.map_cons, List.map_nil, List.mem_cons,
      List.not_mem_nil, or_false] at hc
    rcases hc with rfl | rfl
    · exact ⟨"b", Column.i8 2, rfl, rfl⟩
    · exact ⟨"c", Column.i8 10, rfl, rfl⟩
  · refine ⟨by simp [idx_page_cells], ?_⟩
    intro c hc
    simp only [idx_page_cells, List.mem_cons, List.not_mem_nil, or_false] at hc
    rcases hc with rfl | rfl
    · exact ⟨"b", Column.i8 1, rfl, rfl⟩
    · exact ⟨"b", Column.i8 1, rfl, rfl⟩
  · refine ⟨by simp [idx_page_cells], ?_⟩
    intro c hc
    simp only [idx_page_cells, List.mem_cons, List.not_mem_nil, or_false] at hc
    subst hc
    exact ⟨"c", Column.i8 9, rfl, rfl⟩
  · refine ⟨by simp [idx_page_cells], ?_⟩
    intro c hc
    simp only [idx_page_cells, List.mem_cons, List.not_mem_nil, or_false] at hc
    subst hc
    exact ⟨"c", Column.i8 11, rfl, rfl⟩

theorem wit3_sorted : idx_sorted wit3 := by
  unfold idx_sorted
  have hkeys : (idx_entries_inorder wit3).map cell_key =
      ["b", "b", "b", "c", "c", "c"] := by
    simp [wit3, idx_entries_inorder, idx_entries_inorder_cells, cell_key]
  rw [hkeys]
  have hbc : ("b" : String) ≤ "c" := by simp; decide
  refine List.Pairwise.cons ?_ (List.Pairwise.cons ?_ (List.Pairwise.cons ?_
    (List.Pairwise.cons ?_ (List.Pairwise.cons ?_ (List.Pairwise.cons ?_
    List.Pairwise.nil))))) <;>
    intro x hx <;> fin_cases hx <;>
    first
      | exact le_refl _
      | exact hbc

theorem wit3_range : idx_range_ok wit3 "b" := by
  intro p hp cells rm hpe
  rw [wit3_subpages] at hp
  fin_cases hp
  · left
    constructor
    · have : idx_first_key wit3 = "b" := by
        simp [wit3, idx_first_key, idx_page_cells, cell_key]
      rw [this]
    · have : idx_last_key wit3 = "c" := by
        simp [wit3, idx_last_key, idx_page_cells, cell_key]
      rw [this]
      simp
      decide
  · simp [wit3] at hpe
  · simp [wit3] at hpe
  · simp [wit3] at hpe

/-- Witness for C3: at `wit3` with needle "b" the hypotheses hold and the
result [2, 1, 1] lists the root cell's row id before the duplicate row ids
beneath its left child, duplicates preserved. -/
theorem claim_c3_result_order_witness :
    idx_wf wit3 ∧ idx_sorted wit3 ∧ idx_range_ok wit3 "b" ∧
    query_idx_page wit3 "b" = .ok (some (match_rowids (idx_entries_pre wit3) "b")) ∧
    match_rowids (idx_entries_pre wit3) "b" = [2, 1, 1] := by
  refine ⟨wit3_wf, wit3_sorted, wit3_range,
    claim_c3_result_order wit3 "b" wit3_wf wit3_sorted wit3_range, ?_⟩
  simp [wit3, idx_entries_pre, idx_entries_pre_cells, match_rowids, rowid_of_column]

/-- Whether a computation ended in a recoverable error value (`Result::Err`),
as opposed to succeeding or panicking. -/
def is_err_value {α : Type} : Except RtError α → Bool
  | .error (.err _) => true
  | _ => false

/-- C8 counterexample: on an empty leaf index page the lookup panics with
"page has no cells"; the outcome is not a recoverable error value, so no
CorruptIndex error is reported to the caller. -/
theorem claim_c8_counterexample :
    query_idx_page (.leaf []) "x" = .error (.panicked "page has no cells") ∧
    is_err_value (query_idx_page (.leaf []) "x") = false := by
  constructor
  · simp [query_idx_page, query_leaf_idx]
  · simp [query_idx_page, query_leaf_idx, is_err_value]

/-- C8 (amended): an index lookup that reaches an index page (leaf or
interior) containing zero cells panics with the message "page has no cells"
instead of returning a recoverable error value. -/
theorem claim_c8_empty_page_panics (k : String) (rm : IdxTree) :
    query_idx_page (.leaf []) k = .error (.panicked "page has no cells") ∧
    query_idx_page (.interior [] rm) k = .error (.panicked "page has no cells") := by
  constructor
  · simp [query_idx_page, query_leaf_idx]
  · simp [query_idx_page]

/-- A decoded leaf-table cell (`LeafTableCell`): the row id and the decoded
record columns.  The `size` and `record_header` fields are decoded but never
consumed by the executor, so they are omitted from the model. -/
structure LeafTableCell where
  rowid : Int
  columns : List Column
deriving DecidableEq, Repr

/-- A table B-tree with the page-number indirection resolved: a leaf-table
page holds its cells; an interior-table page holds cells pairing the decoded
`left_child_page` with the cell's row id (`TableInteriorCell`), plus the page
decoded from the header's `rightmost_pointer`. -/
inductive TableTree where
  | leaf (cells : List LeafTableCell)
  | interior (cells : List (TableTree × Int)) (rightmost : TableTree)
deriving Repr

/-- `TableInfo`: the root page (root_page_num resolved through `get_page`)
and the ordered column map parsed from the CREATE TABLE text
(`column_orders : BTreeMap<String, usize>`, embedded as the association list
in the map's iteration order, keys distinct). -/
structure TableInfo where
  root : TableTree
  column_orders : List (String × Nat)
deriving Repr

/-- `IdxInfo`: root page of the index tree, index name, indexed columns
(`HashSet<String>` as a list). -/
structure IdxInfo where
  root : IdxTree
  idx_name : String
  columns : List String
deriving Repr

/-- The engine handle `Db`: the two catalog maps built from the schema table
(name-keyed; `table_infos` and `idx_infos` are both keyed by TABLE name). -/
structure Db where
  table_infos : List (String × TableInfo)
  idx_infos : List (String × IdxInfo)

/-- A parsed `SELECT` (`SelectQuery`): table name, output columns with their
positions (`HashMap<String, usize>`), and the optional WHERE column/value. -/
structure SelectQuery where
  table_name : String
  columns : List (String × Nat)
  where_column : Option String
  where_value : Option String
deriving Repr

theorem TableTree.sizeOf_pos (t : TableTree) : 0 < sizeOf t := by
  cases t <;> simp_arith

theorem list_sizeOf_pos {α : Type} [SizeOf α] (l : List α) : 0 < sizeOf l := by
  cases l <;> simp_arith

/-- The column rendering match shared verbatim by `Db::query_leaf_page`
(src/db.rs lines 485-493) and `Db::get_row_leaf` (lines 752-760): text
renders as itself, integers and the Zero/One sentinels as decimal, and NULL
as the decimal form of the enclosing cell's row id. -/
def column_value (c : Column) (rowid : Int) : String :=
  match c with
  | .str s => s
  | .i8 i => toString i
  | .i16 i => toString i
  | .i24 i => toString i
  | .zero => "0"
  | .one => "1"
  | .null => toString rowid

/-- The projection loop of `Db::get_row_leaf` (src/db.rs lines 748-765):
iterate the table's `column_orders`, index into the cell's columns
(panicking when out of bounds, line 750), render, and write the value into
the output row at the position the query assigns to that column name; the
write `row[j] = v` (line 763) likewise panics when `j` is out of the row's
bounds. -/
def project_row_loop (cols : List Column) (rowid : Int) (q : SelectQuery) :
    List String → List (String × Nat) → Except RtError (List String)
  | row, [] => .ok row
  | row, (name, order) :: rest =>
    match cols.get? order with
    | none => .error (.panicked "index out of bounds")
    | some col =>
      let v := column_value col rowid
      match lookupA q.columns name with
      | some j =>
        if j < row.length then project_row_loop cols rowid q (row.set j v) rest
        else .error (.panicked "index out of bounds")
      | none => project_row_loop cols rowid q row rest

/-- The fused filter-and-project loop of `Db::query_leaf_page` (src/db.rs
lines 474-503): same projection as `project_row_loop` — including the
panic when the write position of `row[j] = v` (line 501) is out of the
row's bounds — additionally setting `write_row` when the WHERE column's
rendered value equals the WHERE value. -/
def scan_row_loop (cols : List Column) (rowid : Int) (q : SelectQuery) :
    List String → Bool → List (String × Nat) → Except RtError (List String × Bool)
  | row, write_row, [] => .ok (row, write_row)
  | row, write_row, (name, order) :: rest =>
    match cols.get? order with
    | none => .error (.panicked "index out of bounds")
    | some col =>
      let v := column_value col rowid
      let w := write_row ||
        (decide (q.where_column = some name) && decide (q.where_value = some v))
      match lookupA q.columns name with
      | some j =>
        if j < row.length then scan_row_loop cols rowid q (row.set j v) w rest
        else .error (.panicked "index out of bounds")
      | none => scan_row_loop cols rowid q row w rest

/-- The cell loop of `Db::query_leaf_page` (src/db.rs lines 466-510):
`write_row` starts true exactly when there is no WHERE column; rows are
pushed when `write_row` ends up true. -/
def query_leaf_page_cells (q : SelectQuery) (info : TableInfo) :
    List LeafTableCell → Except RtError (List (List String))
  | [] => .ok []
  | cell :: rest => do
    let rw ← scan_row_loop cell.columns cell.rowid q
      (List.replicate q.columns.length "") q.where_column.isNone info.column_orders
    let rest' ← query_leaf_page_cells q info rest
    .ok (if rw.2 then rw.1 :: rest' else rest')

mutual

/-- The page dispatch of `Db::execute_select` (src/db.rs lines 412-416) and
of the child handling inside `Db::query_interior_page`: leaf-table pages go
through the leaf scанner, interior-table pages recurse.  (The `todo!` /
ignored arms for index pages cannot arise: table trees only contain table
pages.) -/
def query_table_page (t : TableTree) (q : SelectQuery) (info : TableInfo) :
    Except RtError (List (List String)) :=
  match t with
  | .leaf cells => query_leaf_page_cells q info cells
  | .interior cells rm => query_interior_page cells rm q info
termination_by sizeOf t

/-- `Db::query_interior_page` (src/db.rs lines 419-464): visit each cell's
left child in array order, then the rightmost child, appending results. -/
def query_interior_page (cells : List (TableTree × Int)) (rm : TableTree)
    (q : SelectQuery) (info : TableInfo) : Except RtError (List (List String)) := do
  let a ← query_interior_page_cells cells q info
  let b ← query_table_page rm q info
  .ok (a ++ b)
termination_by sizeOf cells + sizeOf rm
decreasing_by
  all_goals
    (have h1 := TableTree.sizeOf_pos rm
     have h2 := list_sizeOf_pos cells
     simp_wf
     omega)

/-- The cell loop of `Db::query_interior_page`. -/
def query_interior_page_cells : List (TableTree × Int) → SelectQuery → TableInfo →
    Except RtError (List (List String))
  | [], _, _ => .ok []
  | (child, _) :: rest, q, info => do
    let a ← query_table_page child q info
    let b ← query_interior_page_cells rest q info
    .ok (a ++ b)
termination_by l _ _ => sizeOf l

end

/-- `Db::get_row_leaf` (src/db.rs lines 738-771): linear scan for the cell
whose row id equals the target; on a match, project and return; otherwise
`Ok(vec![])`. -/
def get_row_leaf (rowid : Int) (info : TableInfo) (q : SelectQuery) :
    List LeafTableCell → Except RtError (List String)
  | [] => .ok []
  | cell :: rest =>
    if cell.rowid = rowid then
      project_row_loop cell.columns cell.rowid q
        (List.replicate q.columns.length "") info.column_orders
    else get_row_leaf rowid info q rest

mutual

/-- `Db::get_row` (src/db.rs lines 690-704) restricted to table pages (the
index-page arm panics and cannot arise in a table tree). -/
def get_row (t : TableTree) (rowid : Int) (info : TableInfo) (q : SelectQuery) :
    Except RtError (List String) :=
  match t with
  | .leaf cells => get_row_leaf rowid info q cells
  | .interior cells rm => get_row_interior cells rm rowid info q
termination_by sizeOf t

/-- `Db::get_row_interior` (src/db.rs lines 706-736): unwrap the last cell
(panicking on an empty page); when its row id is ≥ the target, scan for the
first cell whose row id is ≥ the target and descend into its left child
(falling through to `Ok(vec![])` when none is found); otherwise descend into
the rightmost child. -/
def get_row_interior (cells : List (TableTree × Int)) (rm : TableTree) (rowid : Int)
    (info : TableInfo) (q : SelectQuery) : Except RtError (List String) :=
  match cells.getLast? with
  | none => .error (.panicked "called Option::unwrap on a None value")
  | some lastc =>
    if lastc.2 ≥ rowid then get_row_find cells rowid info q
    else get_row rm rowid info q
termination_by sizeOf cells + sizeOf rm
decreasing_by
  all_goals
    (have h1 := TableTree.sizeOf_pos rm
     have h2 := list_sizeOf_pos cells
     simp_wf
     omega)

/-- The cell loop of `Db::get_row_interior` (src/db.rs lines 717-725). -/
def get_row_find : List (TableTree × Int) → Int → TableInfo → SelectQuery →
    Except RtError (List String)
  | [], _, _, _ => .ok []
  | (child, crid) :: rest, rowid, info, q =>
    if rowid ≤ crid then get_row child rowid info q
    else get_row_find rest rowid info q
termination_by l _ _ _ => sizeOf l

end

/-- The row-id loop of the index plan in `Db::execute_select` (src/db.rs
lines 391-397): fetch each row id's row and keep the non-empty projections,
in row-id list order. -/
def collect_rows (root : TableTree) (rowids : List Int) (info : TableInfo)
    (q : SelectQuery) : Except RtError (List (List String)) :=
  match rowids with
  | [] => .ok []
  | rid :: rest => do
    let r ← get_row root rid info q
    let res ← collect_rows root rest info q
    .ok (if r.isEmpty then res else r :: res)

/-- `Db::query_idx` (src/db.rs lines 512-524): resolve the table's index
descriptor (an `anyhow` error when absent — unreachable from
`execute_select`, which checks first), read its root page and query it. -/
def query_idx (db : Db) (table_name : String) (looking_for : String) :
    Except RtError (Option (List Int)) :=
  match lookupA db.idx_infos table_name with
  | none => .error (.err ("no index for " ++ table_name))
  | some idx_info => query_idx_page idx_info.root looking_for

/-- `Db::execute_select` (src/db.rs lines 377-417): when the catalog holds an
index descriptor for the table (regardless of the WHERE column), unwrap the
table descriptor, unwrap `where_value`, run the index lookup, unwrap its
`Option`, and fetch each row id; otherwise scan the table's root page. -/
def execute_select (db : Db) (q : SelectQuery) : Except RtError (List (List String)) :=
  match lookupA db.idx_infos q.table_name with
  | some _ =>
    match lookupA db.table_infos q.table_name with
    | none => .error (.panicked "called Option::unwrap on a None value")
    | some table_info =>
      match q.where_value with
      | none => .error (.panicked "called Option::unwrap on a None value")
      | some v => do
        let rowids_opt ← query_idx db q.table_name v
        match rowids_opt with
        | none => .error (.panicked "called Option::unwrap on a None value")
        | some rowids => collect_rows table_info.root rowids table_info q
  | none =>
    match lookupA db.table_infos q.table_name with
    | none => .error (.err ("no such table: " ++ q.table_name))
    | some table_info => query_table_page table_info.root q table_info

/-- The table-name comparison loop of the `select count` branch of `main`
(src/main.rs lines 239-250): for each catalog table whose name equals the
queried name, read its root page; a leaf-table root prints the header's
`num_cells` (equal to the decoded cell count), any other root hits `todo!()`.
The returned list collects the printed counts. -/
def select_count_loop : List (String × TableInfo) → String → Except RtError (List Nat)
  | [], _ => .ok []
  | (name, info) :: rest, queried =>
    if name = queried then
      match info.root with
      | .leaf cells => do
        let r ← select_count_loop rest queried
        .ok (cells.length :: r)
      | .interior _ _ => .error (.panicked "not yet implemented")
    else select_count_loop rest queried

/-- The `select count` branch of `main` (src/main.rs lines 232-251). -/
def select_count (db : Db) (queried_table_name : String) : Except RtError (List Nat) :=
  select_count_loop db.table_infos queried_table_name

mutual

/-- All leaf-table cells beneath a table page, in in-order (the population
of a full table scan). -/
def table_leaf_cells : TableTree → List LeafTableCell
  | .leaf cells => cells
  | .interior cells rm => table_leaf_cells_list cells ++ table_leaf_cells rm

def table_leaf_cells_list : List (TableTree × Int) → List LeafTableCell
  | [] => []
  | (child, _) :: rest => table_leaf_cells child ++ table_leaf_cells_list rest

end

mutual

/-- Every page of a table tree. -/
def table_subpages : TableTree → List TableTree
  | .leaf cells => [.leaf cells]
  | .interior cells rm =>
    .interior cells rm :: (table_subpages_cells cells ++ table_subpages rm)

def table_subpages_cells : List (TableTree × Int) → List TableTree
  | [] => []
  | (child, _) :: rest => table_subpages child ++ table_subpages_cells rest

end

/-- An interior page must have at least one cell (leaf pages are
unconstrained). -/
def page_nonempty_interior : TableTree → Prop
  | .leaf _ => True
  | .interior cells _ => cells ≠ []

/-- Every interior page of the tree has at least one cell (so the
`last().unwrap()` of `get_row_interior` cannot panic). -/
def table_wf_nonempty (t : TableTree) : Prop :=
  ∀ p ∈ table_subpages t, page_nonempty_interior p

/-- The row ids present in the table (the leaf cells' row ids). -/
def table_rowids (t : TableTree) : List Int :=
  (table_leaf_cells t).map (fun c => c.rowid)

theorem table_tree_ind (P : TableTree → Prop)
    (hleaf : ∀ cells, P (.leaf cells))
    (hint : ∀ cells rm, (∀ pr ∈ cells, P pr.1) → P rm → P (.interior cells rm)) :
    ∀ t, P t := by
  have H : ∀ n t, sizeOf t ≤ n → P t := by
    intro n
    induction n with
    | zero =>
      intro t ht
      cases t <;> simp at ht
    | succ n ih =>
      intro t ht
      cases t with
      | leaf cells => exact hleaf cells
      | interior cells rm =>
        refine hint cells rm ?_ ?_
        · intro pr hpr
          obtain ⟨c, crid⟩ := pr
          have h1 : sizeOf (c, crid) < sizeOf cells := List.sizeOf_lt_of_mem hpr
          have h2 : sizeOf (TableTree.interior cells rm) = 1 + sizeOf cells + sizeOf rm := by
            simp
          have h3 : sizeOf (c, crid) = 1 + sizeOf c + sizeOf crid := by simp
          show P c
          apply ih
          simp only [h2] at ht
          simp only [h3] at h1
          omega
        · apply ih
          have h2 : sizeOf (TableTree.interior cells rm) = 1 + sizeOf cells + sizeOf rm := by
            simp
          simp only [h2] at ht
          omega
  exact fun t => H (sizeOf t) t le_rfl

theorem select_count_loop_not_mem (l : List (String × TableInfo)) (name : String)
    (h : name ∉ l.map Prod.fst) : select_count_loop l name = .ok [] := by
  induction l with
  | nil => simp [select_count_loop]
  | cons pr rest ih =>
    obtain ⟨n, i⟩ := pr
    simp only [List.map_cons, List.mem_cons] at h
    push_neg at h
    have hne : ¬ (n = name) := fun he => h.1 he.symm
    simp [select_count_loop, hne, ih h.2]

theorem select_count_lookup (l : List (String × TableInfo)) (name : String)
    (info : TableInfo) (hnd : (l.map Prod.fst).Nodup)
    (hl : lookupA l name = some info) :
    select_count_loop l name =
      (match info.root with
       | .leaf cells => .ok [cells.length]
       | .interior _ _ => .error (.panicked "not yet implemented")) := by
  induction l with
  | nil => simp [lookupA] at hl
  | cons pr rest ih =>
    obtain ⟨n, i⟩ := pr
    simp only [List.map_cons, List.nodup_cons] at hnd
    by_cases he : n = name
    · subst he
      simp [lookupA] at hl
      subst hl
      have hrest : select_count_loop rest n = .ok [] :=
        select_count_loop_not_mem rest n hnd.1
      cases hroot : i.root with
      | leaf cells => simp [select_count_loop, hroot, hrest, Bind.bind, Except.bind]
      | interior cells rm => simp [select_count_loop, hroot]
    · have hl' : lookupA rest name = some info := by
        simpa [lookupA, he] using hl
      simp [select_count_loop, he, ih hnd.2 hl']

/-- C2 (amended): the COUNT(*) branch prints the root page's cell count when
the table's root is a leaf-table page — in particular 0 for an empty table —
and panics at `todo!()` ("not yet implemented") when the root is an interior
page, rather than returning a full-traversal count. -/
theorem claim_c2_count_star (db : Db) (name : String) (info : TableInfo)
    (hnd : (db.table_infos.map Prod.fst).Nodup)
    (hl : lookupA db.table_infos name = some info) :
    (∀ cells, info.root = .leaf cells → select_count db name = .ok [cells.length]) ∧
    (info.root = .leaf [] → select_count db name = .ok [0]) ∧
    (∀ cells rm, info.root = .interior cells rm →
      select_count db name = .error (.panicked "not yet implemented")) := by
  have h := select_count_lookup db.table_infos name info hnd hl
  refine ⟨?_, ?_, ?_⟩
  · intro cells hr
    rw [hr] at h
    simpa [select_count] using h
  · intro hr
    rw [hr] at h
    simpa [select_count] using h
  · intro cells rm hr
    rw [hr] at h
    simpa [select_count] using h

/-- A table tree whose root is an interior page and whose full traversal
holds no cells at all. -/
def c2root : TableTree := .interior [(.leaf [], 1)] (.leaf [])

/-- An engine handle with a single table "t" rooted at `c2root`. -/
def c2db : Db :=
  { table_infos := [("t", { root := c2root, column_orders := [] })], idx_infos := [] }

/-- C2 counterexample: a table whose root page is an interior page makes the
COUNT(*) branch panic at `todo!()` ("not yet implemented") instead of
returning the full-traversal count (which here is 0). -/
theorem claim_c2_counterexample :
    select_count c2db "t" = .error (.panicked "not yet implemented") ∧
    (table_leaf_cells c2root).length = 0 := by
  constructor
  · simp [c2db, c2root, select_count, select_count_loop]
  · simp [c2root, table_leaf_cells, table_leaf_cells_list]

/-- An engine handle with a two-row table and an empty table. -/
def c2widb : Db :=
  { table_infos :=
      [("apples", { root := .leaf [⟨1, [Column.null]⟩, ⟨2, [Column.null]⟩],
                    column_orders := [] }),
       ("emptytab", { root := .leaf [], column_orders := [] })],
    idx_infos := [] }

/-- Witness for C2: COUNT(*) returns 2 for the two-cell leaf-rooted table
and 0 for the empty table. -/
theorem claim_c2_count_star_witness :
    select_count c2widb "apples" = .ok [2] ∧ select_count c2widb "emptytab" = .ok [0] := by
  have h1 := (claim_c2_count_star c2widb "apples"
      { root := .leaf [⟨1, [Column.null]⟩, ⟨2, [Column.null]⟩], column_orders := [] }
      (by simp [c2widb]) (by simp [c2widb, lookupA])).1
      [⟨1, [Column.null]⟩, ⟨2, [Column.null]⟩] rfl
  have h2 := (claim_c2_count_star c2widb "emptytab"
      { root := .leaf [], column_orders := [] }
      (by simp [c2widb]) (by simp [c2widb, lookupA])).2.1 rfl
  exact ⟨by simpa using h1, h2⟩

theorem pairwise_snd_le_getLast {cells : List (TableTree × Int)} {lastc : TableTree × Int}
    (hp : List.Pairwise (fun a b => a.2 ≤ b.2) cells) (hl : cells.getLast? = some lastc) :
    ∀ c ∈ cells, c.2 ≤ lastc.2 := by
  induction cells with
  | nil => simp at hl
  | cons x xs ih =>
    rw [List.pairwise_cons] at hp
    intro c hc
    rcases List.mem_cons.mp hc with rfl | hmem
    · have hm : lastc ∈ c :: xs := List.mem_of_getLast?_eq_some hl
      rcases List.mem_cons.mp hm with heq | hm2
      · exact le_of_eq (by rw [heq])
      · exact hp.1 lastc hm2
    · cases xs with
      | nil => simp at hmem
      | cons y ys =>
        rw [List.getLast?_cons_cons] at hl
        exact ih hp.2 hl c hmem

theorem get_row_find_eq (rowid : Int) (info : TableInfo) (q : SelectQuery) :
    ∀ cells : List (TableTree × Int),
    get_row_find cells rowid info q =
      (match cells.find? (fun c => decide (rowid ≤ c.2)) with
       | some c => get_row c.1 rowid info q
       | none => .ok []) := by
  intro cells
  induction cells with
  | nil => simp [get_row_find]
  | cons pr rest ih =>
    obtain ⟨child, crid⟩ := pr
    by_cases h : rowid ≤ crid
    · simp [get_row_find, h]
    · simp [get_row_find, h, ih]

/-- C5: on an interior table page with at least one cell and non-decreasing
cell row ids (the spec's row-id invariant), the point lookup descends into
the left child of the FIRST cell (array order) whose stored row id is ≥ the
target — equality descends left — and descends into the rightmost child
exactly when no cell's row id is ≥ the target; on a leaf page it scans for
the first cell whose row id equals the target exactly and returns its
projected columns, or an empty row list when absent. -/
theorem claim_c5_get_row_descent :
    (∀ (cells : List (TableTree × Int)) (rm : TableTree) (rowid : Int)
        (info : TableInfo) (q : SelectQuery),
      cells ≠ [] →
      List.Pairwise (fun a b => a.2 ≤ b.2) cells →
      get_row (.interior cells rm) rowid info q =
        (match cells.find? (fun c => decide (rowid ≤ c.2)) with
         | some c => get_row c.1 rowid info q
         | none => get_row rm rowid info q)) ∧
    (∀ (cells : List LeafTableCell) (rowid : Int) (info : TableInfo) (q : SelectQuery),
      get_row (.leaf cells) rowid info q =
        (match cells.find? (fun c => decide (c.rowid = rowid)) with
         | some c => project_row_loop c.columns c.rowid q
             (List.replicate q.columns.length "") info.column_orders
         | none => .ok [])) := by
  constructor
  · intro cells rm rowid info q hne hsorted
    have hlastsome := List.getLast?_isSome.mpr hne
    obtain ⟨lastc, hlast⟩ := Option.isSome_iff_exists.mp hlastsome
    by_cases hge : lastc.2 ≥ rowid
    · have hex : ∃ c, cells.find? (fun c => decide (rowid ≤ c.2)) = some c := by
        cases hf : cells.find? (fun c => decide (rowid ≤ c.2)) with
        | some c => exact ⟨c, rfl⟩
        | none =>
          have hall := List.find?_eq_none.mp hf lastc (List.mem_of_getLast?_eq_some hlast)
          simp at hall
          omega
      obtain ⟨c, hf⟩ := hex
      have hfind := get_row_find_eq rowid info q cells
      rw [hf] at hfind
      simp only [get_row, get_row_interior, hlast]
      rw [if_pos hge, hfind, hf]
    · have hf : cells.find? (fun c => decide (rowid ≤ c.2)) = none := by
        rw [List.find?_eq_none]
        intro c hc
        have hb := pairwise_snd_le_getLast hsorted hlast c hc
        simp
        omega
      simp only [get_row, get_row_interior, hlast]
      rw [if_neg hge, hf]
  · intro cells rowid info q
    induction cells with
    | nil => simp [get_row, get_row_leaf]
    | cons cell rest ih =>
      simp only [get_row] at ih
      by_cases h : cell.rowid = rowid
      · simp [get_row, get_row_leaf, h]
      · simp [get_row, get_row_leaf, h, ih]

/-- A two-cell interior table page over three leaves. -/
def c5cells : List (TableTree × Int) :=
  [(.leaf [⟨1, [Column.i8 0]⟩, ⟨5, [Column.i8 1]⟩], 5),
   (.leaf [⟨7, [Column.i8 2]⟩, ⟨10, [Column.i8 3]⟩], 10)]

/-- The rightmost child of the witness page. -/
def c5rm : TableTree := .leaf [⟨12, [Column.i8 4]⟩]

/-- A trivial query and table descriptor for the C5 witness. -/
def c5q : SelectQuery :=
  { table_name := "t", columns := [("a", 0)], where_column := none, where_value := none }

/-- Table descriptor for the C5 witness. -/
def c5info : TableInfo := { root := .interior c5cells c5rm, column_orders := [("a", 0)] }

/-- Witness for C5 at a concrete page: the hypotheses hold and the descent
equations are instantiated at target row ids 7 (descends into the second
cell's left child) and at a leaf with an exact match. -/
theorem claim_c5_get_row_descent_witness :
    c5cells ≠ [] ∧
    List.Pairwise (fun a b => a.2 ≤ b.2) c5cells ∧
    (get_row (.interior c5cells c5rm) 7 c5info c5q =
      (match c5cells.find? (fun c => decide ((7 : Int) ≤ c.2)) with
       | some c => get_row c.1 7 c5info c5q
       | none => get_row c5rm 7 c5info c5q)) ∧
    (get_row (.leaf [⟨7, [Column.i8 2]⟩, ⟨10, [Column.i8 3]⟩]) 7 c5info c5q =
      (match ([⟨7, [Column.i8 2]⟩, ⟨10, [Column.i8 3]⟩] :
          List LeafTableCell).find? (fun c => decide (c.rowid = 7)) with
       | some c => project_row_loop c.columns c.rowid c5q
           (List.replicate c5q.columns.length "") c5info.column_orders
       | none => .ok [])) :=
  ⟨by simp [c5cells], by decide,
    claim_c5_get_row_descent.1 c5cells c5rm 7 c5info c5q (by simp [c5cells]) (by decide),
    claim_c5_get_row_descent.2 [⟨7, [Column.i8 2]⟩, ⟨10, [Column.i8 3]⟩] 7 c5info c5q⟩

theorem table_self_mem_subpages (t : TableTree) : t ∈ table_subpages t := by
  cases t <;> simp [table_subpages]

theorem mem_table_subpages_cells_of_child {cells : List (TableTree × Int)}
    {child : TableTree} {r : Int} (hmem : (child, r) ∈ cells) :
    ∀ p ∈ table_subpages child, p ∈ table_subpages_cells cells := by
  induction cells with
  | nil => simp at hmem
  | cons pr rest ih =>
    obtain ⟨c, cr⟩ := pr
    intro p hp
    simp only [table_subpages_cells, List.mem_append]
    rcases List.mem_cons.mp hmem with heq | hmem2
    · obtain ⟨rfl, rfl⟩ := Prod.mk.inj heq
      exact Or.inl hp
    · exact Or.inr (ih hmem2 p hp)

theorem table_wf_child {cells : List (TableTree × Int)} {rm child : TableTree} {r : Int}
    (h : table_wf_nonempty (.interior cells rm)) (hmem : (child, r) ∈ cells) :
    table_wf_nonempty child := by
  intro p hp
  refine h p ?_
  simp only [table_subpages, List.mem_cons, List.mem_append]
  exact Or.inr (Or.inl (mem_table_subpages_cells_of_child hmem p hp))

theorem table_wf_rm {cells : List (TableTree × Int)} {rm : TableTree}
    (h : table_wf_nonempty (.interior cells rm)) : table_wf_nonempty rm := by
  intro p hp
  refine h p ?_
  simp only [table_subpages, List.mem_cons, List.mem_append]
  exact Or.inr (Or.inr hp)

theorem table_leaf_cells_child_subset {cells : List (TableTree × Int)} {child : TableTree}
    {r : Int} (hmem : (child, r) ∈ cells) :
    ∀ c ∈ table_leaf_cells child, c ∈ table_leaf_cells_list cells := by
  induction cells with
  | nil => simp at hmem
  | cons pr rest ih =>
    obtain ⟨c0, cr⟩ := pr
    intro c hc
    simp only [table_leaf_cells_list, List.mem_append]
    rcases List.mem_cons.mp hmem with heq | hmem2
    · obtain ⟨rfl, rfl⟩ := Prod.mk.inj heq
      exact Or.inl hc
    · exact Or.inr (ih hmem2 c hc)

theorem table_rowids_child {cells : List (TableTree × Int)} {rm child : TableTree}
    {r rowid : Int} (hmem : (child, r) ∈ cells)
    (habs : rowid ∉ table_rowids (.interior cells rm)) : rowid ∉ table_rowids child := by
  intro hin
  apply habs
  simp only [table_rowids, List.mem_map] at hin ⊢
  obtain ⟨c, hc, hcr⟩ := hin
  refine ⟨c, ?_, hcr⟩
  simp only [table_leaf_cells, List.mem_append]
  exact Or.inl (table_leaf_cells_child_subset hmem c hc)

theorem table_rowids_rm {cells : List (TableTree × Int)} {rm : TableTree} {rowid : Int}
    (habs : rowid ∉ table_rowids (.interior cells rm)) : rowid ∉ table_rowids rm := by
  intro hin
  apply habs
  simp only [table_rowids, List.mem_map] at hin ⊢
  obtain ⟨c, hc, hcr⟩ := hin
  refine ⟨c, ?_, hcr⟩
  simp only [table_leaf_cells, List.mem_append]
  exact Or.inr hc

theorem get_row_leaf_absent (rowid : Int) (info : TableInfo) (q : SelectQuery) :
    ∀ cells : List LeafTableCell, (∀ c ∈ cells, c.rowid ≠ rowid) →
    get_row_leaf rowid info q cells = .ok [] := by
  intro cells
  induction cells with
  | nil => intro _; simp [get_row_leaf]
  | cons cell rest ih =>
    intro h
    have h1 : cell.rowid ≠ rowid := h cell (List.mem_cons_self _ _)
    simp [get_row_leaf, h1, ih (fun c hc => h c (List.mem_cons_of_mem _ hc))]

theorem get_row_find_absent (rowid : Int) (info : TableInfo) (q : SelectQuery) :
    ∀ cells : List (TableTree × Int),
    (∀ pr ∈ cells, get_row pr.1 rowid info q = .ok []) →
    get_row_find cells rowid info q = .ok [] := by
  intro cells
  induction cells with
  | nil => intro _; simp [get_row_find]
  | cons pr rest ih =>
    intro h
    obtain ⟨child, cr⟩ := pr
    by_cases hle : rowid ≤ cr
    · simpa [get_row_find, hle] using h (child, cr) (List.mem_cons_self _ _)
    · simp [get_row_find, hle, ih (fun pr hpr => h pr (List.mem_cons_of_mem _ hpr))]

theorem get_row_absent (rowid : Int) (info : TableInfo) (q : SelectQuery) :
    ∀ t : TableTree, table_wf_nonempty t → rowid ∉ table_rowids t →
    get_row t rowid info q = .ok [] := by
  apply table_tree_ind (fun t => table_wf_nonempty t → rowid ∉ table_rowids t →
    get_row t rowid info q = .ok [])
  · intro cells hwf habs
    simp only [get_row]
    apply get_row_leaf_absent
    intro c hc heq
    apply habs
    simp only [table_rowids, table_leaf_cells, List.mem_map]
    exact ⟨c, hc, heq⟩
  · intro cells rm hcs hrm hwf habs
    have hne : cells ≠ [] := by
      have := hwf (.interior cells rm) (table_self_mem_subpages _)
      simpa [page_nonempty_interior] using this
    obtain ⟨lastc, hlast⟩ :=
      Option.isSome_iff_exists.mp (List.getLast?_isSome.mpr hne)
    simp only [get_row, get_row_interior, hlast]
    by_cases hge : lastc.2 ≥ rowid
    · rw [if_pos hge]
      apply get_row_find_absent
      intro pr hpr
      exact hcs pr hpr (table_wf_child hwf hpr) (table_rowids_child hpr habs)
  
    · rw [if_neg hge]
      exact hrm (table_wf_rm hwf) (table_rowids_rm habs)

theorem collect_rows_skip (root : TableTree) (rowid : Int) (info : TableInfo)
    (q : SelectQuery) (h0 : get_row root rowid info q = .ok []) :
    ∀ l1 l2 : List Int, collect_rows root (l1 ++ rowid :: l2) info q =
      collect_rows root (l1 ++ l2) info q := by
  intro l1
  induction l1 with
  | nil =>
    intro l2
    simp only [List.nil_append, collect_rows, h0, Bind.bind, Except.bind]
    cases hc : collect_rows root l2 info q <;> simp
  | cons x l1 ih =>
    intro l2
    simp only [List.cons_append, collect_rows]
    cases hx : get_row root x info q with
    | error e => simp [Bind.bind, Except.bind]
    | ok r => simp [Bind.bind, Except.bind, ih l2]

/-- C6: for every table tree whose interior pages are non-empty and every
row id not present in any of its leaf cells, the point lookup returns
`Ok(vec![])` (an empty projection, no error), and the executor's row-id loop
drops the empty projection: inserting such a row id anywhere into the row-id
list leaves the output unchanged — an index range-check false positive never
produces an output row. -/
theorem claim_c6_absent_rowid (t : TableTree) (rowid : Int) (info : TableInfo)
    (q : SelectQuery) (hwf : table_wf_nonempty t) (habs : rowid ∉ table_rowids t) :
    get_row t rowid info q = .ok [] ∧
    ∀ l1 l2 : List Int, collect_rows t (l1 ++ rowid :: l2) info q =
      collect_rows t (l1 ++ l2) info q := by
  have h := get_row_absent rowid info q t hwf habs
  exact ⟨h, collect_rows_skip t rowid info q h⟩

/-- A small table tree for the C6 witness: row ids 1 and 3 exist, 2 does not. -/
def c6tree : TableTree :=
  .interior [(.leaf [⟨1, [Column.i8 0]⟩], 1)] (.leaf [⟨3, [Column.i8 1]⟩])

theorem c6tree_wf : table_wf_nonempty c6tree := by
  intro p hp
  have hsp : table_subpages c6tree =
      [c6tree, .leaf [⟨1, [Column.i8 0]⟩], .leaf [⟨3, [Column.i8 1]⟩]] := by
    simp [c6tree, table_subpages, table_subpages_cells]
  rw [hsp] at hp
  fin_cases hp
  · simp [c6tree, page_nonempty_interior]
  · simp [page_nonempty_interior]
  · simp [page_nonempty_interior]

/-- Witness for C6 at `c6tree` with the absent row id 2. -/
theorem claim_c6_absent_rowid_witness :
    table_wf_nonempty c6tree ∧ (2 : Int) ∉ table_rowids c6tree ∧
    (get_row c6tree 2 c5info c5q = .ok [] ∧
     ∀ l1 l2 : List Int, collect_rows c6tree (l1 ++ (2 : Int) :: l2) c5info c5q =
       collect_rows c6tree (l1 ++ l2) c5info c5q) := by
  have habs : (2 : Int) ∉ table_rowids c6tree := by
    have : table_rowids c6tree = [1, 3] := by
      simp [c6tree, table_rowids, table_leaf_cells, table_leaf_cells_list]
    rw [this]
    decide
  exact ⟨c6tree_wf, habs, claim_c6_absent_rowid c6tree 2 c5info c5q c6tree_wf habs⟩

theorem project_row_loop_no_write (cols : List Column) (rowid : Int) (q : SelectQuery)
    (j : Nat) :
    ∀ (orders : List (String × Nat)) (row0 : List String),
    (∀ pr ∈ orders, pr.2 < cols.length) →
    (∀ pr ∈ orders, lookupA q.columns pr.1 ≠ some j) →
    (∀ pr ∈ orders, ∀ j', lookupA q.columns pr.1 = some j' → j' < row0.length) →
    ∃ row, project_row_loop cols rowid q row0 orders = .ok row ∧
      row[j]? = row0[j]? ∧ row.length = row0.length := by
  intro orders
  induction orders with
  | nil =>
    intro row0 _ _ _
    exact ⟨row0, rfl, rfl, rfl⟩
  | cons hd tl ih =>
    intro row0 hbound hnw hwb
    obtain ⟨n0, o0⟩ := hd
    have ho0 : o0 < cols.length := hbound (n0, o0) (List.mem_cons_self _ _)
    cases hcol : cols.get? o0 with
    | none =>
      rw [List.get?_eq_none] at hcol
      omega
    | some col =>
      cases hl : lookupA q.columns n0 with
      | none =>
        obtain ⟨row, hrow, hjq, hlenq⟩ := ih row0
          (fun pr hpr => hbound pr (List.mem_cons_of_mem _ hpr))
          (fun pr hpr => hnw pr (List.mem_cons_of_mem _ hpr))
          (fun pr hpr => hwb pr (List.mem_cons_of_mem _ hpr))
        refine ⟨row, ?_, hjq, hlenq⟩
        simp only [project_row_loop, hcol, hl]
        exact hrow
      | some j' =>
        have hj' : j' ≠ j := by
          intro he
          exact hnw (n0, o0) (List.mem_cons_self _ _) (by rw [hl, he])
        have hj'lt : j' < row0.length := hwb (n0, o0) (List.mem_cons_self _ _) j' hl
        obtain ⟨row, hrow, hjq, hlenq⟩ := ih (row0.set j' (column_value col rowid))
          (fun pr hpr => hbound pr (List.mem_cons_of_mem _ hpr))
          (fun pr hpr => hnw pr (List.mem_cons_of_mem _ hpr))
          (fun pr hpr j'' hj'' => by
            rw [List.length_set]
            exact hwb pr (List.mem_cons_of_mem _ hpr) j'' hj'')
        refine ⟨row, ?_, ?_, ?_⟩
        · simp only [project_row_loop, hcol, hl]
          rw [if_pos hj'lt]
          exact hrow
        · rw [hjq, List.getElem?_set_ne hj']
        · rw [hlenq, List.length_set]

theorem project_row_loop_null (cols : List Column) (rowid : Int) (q : SelectQuery)
    (name : String) (o j : Nat) :
    ∀ (orders : List (String × Nat)) (row0 : List String),
    (name, o) ∈ orders →
    cols.get? o = some Column.null →
    lookupA q.columns name = some j →
    (orders.map Prod.fst).Nodup →
    (∀ pr ∈ orders, lookupA q.columns pr.1 = some j → pr.1 = name) →
    (∀ pr ∈ orders, pr.2 < cols.length) →
    (∀ pr ∈ orders, ∀ j', lookupA q.columns pr.1 = some j' → j' < row0.length) →
    j < row0.length →
    ∃ row, project_row_loop cols rowid q row0 orders = .ok row ∧
      row[j]? = some (toString rowid) := by
  intro orders
  induction orders with
  | nil =>
    intro row0 hmem
    simp at hmem
  | cons hd tl ih =>
    intro row0 hmem hnull hj hnd huniq hbound hwb hlen
    obtain ⟨n0, o0⟩ := hd
    simp only [List.map_cons, List.nodup_cons] at hnd
    rcases List.mem_cons.mp hmem with heq | hmem2
    · obtain ⟨h1, h2⟩ := Prod.mk.inj heq
      subst h1
      subst h2
      have hnw : ∀ pr ∈ tl, lookupA q.columns pr.1 ≠ some j := by
        intro pr hpr he
        have := huniq pr (List.mem_cons_of_mem _ hpr) he
        apply hnd.1
        rw [← this]
        exact List.mem_map_of_mem _ hpr
      obtain ⟨row, hrow, hjq, hlenq⟩ := project_row_loop_no_write cols rowid q j tl
        (row0.set j (column_value Column.null rowid))
        (fun pr hpr => hbound pr (List.mem_cons_of_mem _ hpr)) hnw
        (fun pr hpr j'' hj'' => by
          rw [List.length_set]
          exact hwb pr (List.mem_cons_of_mem _ hpr) j'' hj'')
      refine ⟨row, ?_, ?_⟩
      · simp only [project_row_loop, hnull, hj]
        rw [if_pos hlen]
        exact hrow
      · rw [hjq, List.getElem?_set_self (by simpa using hlen)]
        rfl
    · have hne : n0 ≠ name := by
        intro he
        apply hnd.1
        rw [he]
        exact List.mem_map_of_mem _ hmem2
      have ho0 : o0 < cols.length := hbound (n0, o0) (List.mem_cons_self _ _)
      cases hcol : cols.get? o0 with
      | none =>
        rw [List.get?_eq_none] at hcol
        omega
      | some col =>
        cases hl : lookupA q.columns n0 with
        | none =>
          obtain ⟨row, hrow, hjq⟩ := ih row0 hmem2 hnull hj hnd.2
            (fun pr hpr => huniq pr (List.mem_cons_of_mem _ hpr))
            (fun pr hpr => hbound pr (List.mem_cons_of_mem _ hpr))
            (fun pr hpr => hwb pr (List.mem_cons_of_mem _ hpr)) hlen
          refine ⟨row, ?_, hjq⟩
          simp only [project_row_loop, hcol, hl]
          exact hrow
        | some j' =>
          have hj'lt : j' < row0.length := hwb (n0, o0) (List.mem_cons_self _ _) j' hl
          have hlen' : j < (row0.set j' (column_value col rowid)).length := by
            rw [List.length_set]
            exact hlen
          obtain ⟨row, hrow, hjq⟩ := ih (row0.set j' (column_value col rowid)) hmem2
            hnull hj hnd.2
            (fun pr hpr => huniq pr (List.mem_cons_of_mem _ hpr))
            (fun pr hpr => hbound pr (List.mem_cons_of_mem _ hpr))
            (fun pr hpr j'' hj'' => by
              rw [List.length_set]
              exact hwb pr (List.mem_cons_of_mem _ hpr) j'' hj'') hlen'
          refine ⟨row, ?_, hjq⟩
          simp only [project_row_loop, hcol, hl]
          rw [if_pos hj'lt]
          exact hrow

theorem scan_row_loop_vs_project (cols : List Column) (rowid : Int) (q : SelectQuery) :
    ∀ (orders : List (String × Nat)) (row0 : List String) (w0 : Bool),
    (∃ e, scan_row_loop cols rowid q row0 w0 orders = .error e ∧
          project_row_loop cols rowid q row0 orders = .error e) ∨
    (∃ row w, scan_row_loop cols rowid q row0 w0 orders = .ok (row, w) ∧
          project_row_loop cols rowid q row0 orders = .ok row) := by
  intro orders
  induction orders with
  | nil =>
    intro row0 w0
    right
    exact ⟨row0, w0, rfl, rfl⟩
  | cons hd tl ih =>
    intro row0 w0
    obtain ⟨n0, o0⟩ := hd
    cases hcol : cols.get? o0 with
    | none =>
      left
      refine ⟨.panicked "index out of bounds", ?_, ?_⟩
      · simp only [scan_row_loop, hcol]
      · simp only [project_row_loop, hcol]
    | some col =>
      cases hl : lookupA q.columns n0 with
      | none =>
        simp only [scan_row_loop, project_row_loop, hcol, hl]
        exact ih _ _
      | some j =>
        by_cases hjl : j < row0.length
        · simp only [scan_row_loop, project_row_loop, hcol, hl, if_pos hjl]
          exact ih _ _
        · left
          refine ⟨.panicked "index out of bounds", ?_, ?_⟩
          · simp only [scan_row_loop, hcol, hl, if_neg hjl]
          · simp only [project_row_loop, hcol, hl, if_neg hjl]

/-- C9: during projection, every column whose decoded value is NULL — not
only the integer-primary-key column — is rendered as the decimal form of the
enclosing cell's row id, in both paths: the point-lookup projection loop of
`get_row_leaf` (`project_row_loop`) and the scan projection loop of
`query_leaf_page` (`scan_row_loop`).  Side conditions: the NULL column's
name maps to output position j, it is the only table column mapping to j
(column names are distinct, as in the BTreeMap), all column orders are in
bounds on the cell, every selected column's write position is within the
output row (otherwise the write row[j] = v panics with an index-out-of-
bounds abort before any row is produced), and j is within the output row. -/
theorem claim_c9_null_renders_rowid (cols : List Column) (rowid : Int)
    (q : SelectQuery) (orders : List (String × Nat)) (name : String) (o j : Nat)
    (row0 : List String) (w0 : Bool)
    (hmem : (name, o) ∈ orders)
    (hnull : cols.get? o = some Column.null)
    (hj : lookupA q.columns name = some j)
    (hnd : (orders.map Prod.fst).Nodup)
    (huniq : ∀ pr ∈ orders, lookupA q.columns pr.1 = some j → pr.1 = name)
    (hbound : ∀ pr ∈ orders, pr.2 < cols.length)
    (hwb : ∀ pr ∈ orders, ∀ j', lookupA q.columns pr.1 = some j' → j' < row0.length)
    (hlen : j < row0.length) :
    (∃ row, project_row_loop cols rowid q row0 orders = .ok row ∧
      row[j]? = some (toString rowid)) ∧
    (∃ row w, scan_row_loop cols rowid q row0 w0 orders = .ok (row, w) ∧
      row[j]? = some (toString rowid)) := by
  obtain ⟨row, hrow, hjq⟩ := project_row_loop_null cols rowid q name o j orders row0
    hmem hnull hj hnd huniq hbound hwb hlen
  refine ⟨⟨row, hrow, hjq⟩, ?_⟩
  rcases scan_row_loop_vs_project cols rowid q orders row0 w0 with
    ⟨e, hse, hpe⟩ | ⟨row2, w, hs2, hp2⟩
  · rw [hrow] at hpe
    cases hpe
  · rw [hrow] at hp2
    have : row2 = row := by
      injection hp2.symm
    subst this
    exact ⟨row2, w, hs2, hjq⟩

/-- Witness query for C9. -/
def c9q : SelectQuery :=
  { table_name := "t", columns := [("a", 0), ("b", 1)],
    where_column := some "b", where_value := some "x" }

/-- Witness for C9: a NULL in the non-primary-key column "a" of a cell with
row id 42 projects as "42" in both loops. -/
theorem claim_c9_null_renders_rowid_witness :
    (∃ row, project_row_loop [Column.null, Column.str "x"] 42 c9q ["", ""]
        [("a", 0), ("b", 1)] = .ok row ∧ row[0]? = some (toString (42 : Int))) ∧
    (∃ row w, scan_row_loop [Column.null, Column.str "x"] 42 c9q ["", ""] false
        [("a", 0), ("b", 1)] = .ok (row, w) ∧ row[0]? = some (toString (42 : Int))) := by
  exact claim_c9_null_renders_rowid [Column.null, Column.str "x"] 42 c9q
    [("a", 0), ("b", 1)] "a" 0 0 ["", ""] false
    (by decide) rfl (by simp [c9q, lookupA]) (by simp)
    (by
      intro pr hpr he
      fin_cases hpr
      · rfl
      · simp [c9q, lookupA] at he)
    (by decide)
    (by
      intro pr hpr j' hj'
      fin_cases hpr <;> simp [c9q, lookupA] at hj' <;>
        simp only [List.length_cons, List.length_nil] <;> omega)
    (by decide)

/-- Follows the spec's words (§4.6 plan choice): the index plan is mandated
exactly when the table has an index AND the query's WHERE column is covered
by it. -/
def spec_plan_is_index (db : Db) (q : SelectQuery) : Bool :=
  match lookupA db.idx_infos q.table_name with
  | some idx_info =>
    match q.where_column with
    | some c => decide (c ∈ idx_info.columns)
    | none => false
  | none => false

/-- The index plan as a composition: unwrap the table descriptor and the
WHERE value, `find_rowids` (query_idx), unwrap, then `find_row` per row id
keeping the non-empty projections. -/
def index_plan_exec (db : Db) (q : SelectQuery) : Except RtError (List (List String)) :=
  match lookupA db.table_infos q.table_name with
  | none => .error (.panicked "called Option::unwrap on a None value")
  | some table_info =>
    match q.where_value with
    | none => .error (.panicked "called Option::unwrap on a None value")
    | some v => do
      let rowids_opt ← query_idx db q.table_name v
      match rowids_opt with
      | none => .error (.panicked "called Option::unwrap on a None value")
      | some rowids => collect_rows table_info.root rowids table_info q

/-- The scan plan: scan the table's root page, filtering by WHERE inside the
leaf scanner. -/
def scan_plan_exec (db : Db) (q : SelectQuery) : Except RtError (List (List String)) :=
  match lookupA db.table_infos q.table_name with
  | none => .error (.err ("no such table: " ++ q.table_name))
  | some table_info => query_table_page table_info.root q table_info

/-- C4 (amended): the executor takes the index plan iff the catalog holds an
index descriptor for the queried table — it never checks whether the WHERE
column is covered by that index — and takes the scan plan otherwise. -/
theorem claim_c4_plan_choice (db : Db) (q : SelectQuery) :
    execute_select db q =
      (if (lookupA db.idx_infos q.table_name).isSome
       then index_plan_exec db q else scan_plan_exec db q) := by
  cases h : lookupA db.idx_infos q.table_name with
  | none => simp [execute_select, scan_plan_exec, h]
  | some i => simp [execute_select, index_plan_exec, h]

/-- The table for the C4 counterexample: one row (1, "x", "y") with columns
c1, c2. -/
def c4info : TableInfo :=
  { root := .leaf [⟨1, [Column.str "x", Column.str "y"]⟩],
    column_orders := [("c1", 0), ("c2", 1)] }

/-- Engine handle whose table "t" carries an index on column c2 only. -/
def c4db : Db :=
  { table_infos := [("t", c4info)],
    idx_infos := [("t", { root := .leaf [[Column.str "y", Column.i8 1]],
                          idx_name := "i", columns := ["c2"] })] }

/-- A query whose WHERE column c1 is NOT covered by the index (which is on
c2). -/
def c4q : SelectQuery :=
  { table_name := "t", columns := [("c1", 0)],
    where_column := some "c1", where_value := some "x" }

/-- C4 counterexample: `c4db`'s table has an index, but on c2, not on the
WHERE column c1; the spec's plan choice mandates the scan plan, which yields
[["x"]], yet the executor takes the index path (looking "x" up in the c2
index) and returns []. -/
theorem claim_c4_counterexample :
    spec_plan_is_index c4db c4q = false ∧
    execute_select c4db c4q = .ok [] ∧
    scan_plan_exec c4db c4q = .ok [["x"]] := by
  refine ⟨?_, ?_, ?_⟩
  · simp [spec_plan_is_index, c4db, c4q, lookupA]
  · simp [execute_select, c4db, c4q, lookupA, query_idx, query_idx_page, query_leaf_idx,
      query_leaf_idx_cells, idx_cell_match, collect_rows, Bind.bind, Except.bind]
  · simp [scan_plan_exec, c4db, c4q, c4info, lookupA, query_table_page,
      query_leaf_page_cells, scan_row_loop, column_value, Bind.bind, Except.bind]

/-- Witness db and query for the amended C4 (index present, so the index
plan runs end to end). -/
def c4qcov : SelectQuery :=
  { table_name := "t", columns := [("c2", 0)],
    where_column := some "c2", where_value := some "y" }

/-- `c4db` with its index removed. -/
def c4dbNoIdx : Db := { table_infos := c4db.table_infos, idx_infos := [] }

/-- Witness for C4 (amended) at `c4db`: with an index present the executor's
result is the index plan's result, and with the index removed it is the scan
plan's result. -/
theorem claim_c4_plan_choice_witness :
    execute_select c4db c4qcov = index_plan_exec c4db c4qcov ∧
    execute_select c4dbNoIdx c4qcov = scan_plan_exec c4dbNoIdx c4qcov := by
  constructor
  · have h := claim_c4_plan_choice c4db c4qcov
    rwa [if_pos (by simp [c4db, c4qcov, lookupA])] at h
  · have h := claim_c4_plan_choice c4dbNoIdx c4qcov
    rwa [if_neg (by simp [c4dbNoIdx, lookupA])] at h

/-- C10: a SELECT without a WHERE clause on a table for which the catalog
holds an index descriptor makes `execute_select` panic — it unwraps the
absent `where_value` before consulting the index — instead of returning the
full-scan result.  (`execute_select` is the public entry invoked by the
SELECT branch of main.) -/
theorem claim_c10_missing_where_panics (db : Db) (q : SelectQuery)
    (hidx : (lookupA db.idx_infos q.table_name).isSome)
    (htab : (lookupA db.table_infos q.table_name).isSome)
    (hwv : q.where_value = none) :
    execute_select db q = .error (.panicked "called Option::unwrap on a None value") := by
  obtain ⟨i, hi⟩ := Option.isSome_iff_exists.mp hidx
  obtain ⟨t, ht⟩ := Option.isSome_iff_exists.mp htab
  simp [execute_select, hi, ht, hwv]

/-- A SELECT on table "t" without a WHERE clause. -/
def c10q : SelectQuery :=
  { table_name := "t", columns := [("c1", 0)], where_column := none, where_value := none }

/-- Witness for C10: a WHERE-less SELECT against the indexed table of `c4db`
panics. -/
theorem claim_c10_missing_where_panics_witness :
    execute_select c4db c10q =
      .error (.panicked "called Option::unwrap on a None value") :=
  claim_c10_missing_where_panics c4db c10q
    (by simp [c4db, c10q, lookupA]) (by simp [c4db, c10q, lookupA]) rfl
